import Mathlib

/-!
Verification development for the `cola` linear-operator library.

The Lean definitions below are shallow embeddings of the Python source:

* `src/cola/operators.py` — operator constructors (`Sum`, `Product`,
  `Kronecker`, `KronSum`), `get_householder_vec`, `Tridiagonal._matmat`,
  `Kronecker._matmat` / `Kronecker.to_dense`;
* `src/cola/algorithms/gmres.py` — `get_hessenberg_triangular_qr`,
  `apply_givens_fwd`, `get_givens_cos_sin` and the two least-squares
  strategies of `gmres`;
* `src/tests/algorithms/test_cg.py` — `run_cg_lanczos`,
  `initialize_cg_lanczos`, `construct_tri`.

Floating-point arithmetic is embedded as exact arithmetic: `ℚ` where no
square roots occur, `ℝ` (with `Real.sqrt`) elsewhere.  NumPy arrays are
embedded either as total functions (`ℕ → ℚ/ℝ`, junk outside the declared
extent) or, where NumPy broadcasting itself decides a claim, as a small
explicit array model (`NpArr`).  `numpy.reshape` is the identity on the
row-major flat data of an array, so tensor reshapes are embedded as flat
index arithmetic.
-/

set_option maxHeartbeats 1000000

open Finset

/-! ## Dtypes and operator signatures (shapes/dtypes of operands)

For the construction-time validation claims only the shape and the dtype of
an operand matter, so an operand is embedded as an `OpSig`. -/

inductive DType where
  | f32 : DType
  | f64 : DType
  | c64 : DType
  | i32 : DType
deriving DecidableEq, Repr

structure OpSig where
  shape : ℕ × ℕ
  dtype : DType
deriving DecidableEq, Repr

/-- Errors raised by the embedded constructors.  `dimensionMismatch` is the
`ValueError` of `Sum.__init__` / `Product.__init__`; `indexError` is the
Python `IndexError`/`TypeError` obtained when an empty operand tuple reaches
`Ms[0]` or `reduce`. -/
inductive InitErr where
  | dimensionMismatch : InitErr
  | indexError : InitErr
deriving DecidableEq, Repr

/-- Partially-initialized operator object: which fields of `self` have been
assigned so far.  `Ms` is assigned by `self.Ms = Ms`; `shape` and `dtype`
are assigned (via `super().__init__`) only after validation. -/
structure PartialOp where
  Ms : Option (List OpSig)
  shape : Option (ℕ × ℕ)
  dtype : Option DType
deriving DecidableEq, Repr

/-- `Product.__init__` (operators.py lines 96-103).  First statement assigns
`self.Ms`; then each adjacent pair is checked (`M1.shape[-1] != M2.shape[-2]`
raises); then shape `(Ms[0].shape[-2], Ms[-1].shape[-1])` and dtype
`Ms[0].dtype` are set.  The returned pair is (object state at return/raise,
error if raised). -/
def Product_init (Ms : List OpSig) : PartialOp × Option InitErr :=
  let s1 : PartialOp := ⟨some Ms, none, none⟩
  if (Ms.zip Ms.tail).all fun p => p.1.shape.2 = p.2.shape.1 then
    match Ms with
    | [] => (s1, some InitErr.indexError)
    | M0 :: rest =>
      (⟨some Ms, some (M0.shape.1, ((M0 :: rest).getLast (by simp)).shape.2),
        some M0.dtype⟩, none)
  else (s1, some InitErr.dimensionMismatch)

/-- `Sum.__init__` (operators.py lines 122-129).  First statement assigns
`self.Ms`; then `shape = Ms[0].shape` is read (IndexError on empty);
then every operand's shape is compared with it; then dtype/shape fields are
set. -/
def Sum_init (Ms : List OpSig) : PartialOp × Option InitErr :=
  let s1 : PartialOp := ⟨some Ms, none, none⟩
  match Ms with
  | [] => (s1, some InitErr.indexError)
  | M0 :: _ =>
    if Ms.all fun M => M.shape = M0.shape then
      (⟨some Ms, some M0.shape, some M0.dtype⟩, none)
    else (s1, some InitErr.dimensionMismatch)

/-- `Kronecker.__init__` (operators.py lines 158-162): assigns `self.Ms`,
computes the product shape, performs no validation at all.  `reduce` over an
empty operand list raises. -/
def Kronecker_init (Ms : List OpSig) : PartialOp × Option InitErr :=
  let s1 : PartialOp := ⟨some Ms, none, none⟩
  match Ms with
  | [] => (s1, some InitErr.indexError)
  | M0 :: _ =>
    (⟨some Ms, some ((Ms.map fun M => M.shape.1).prod, (Ms.map fun M => M.shape.2).prod),
      some M0.dtype⟩, none)

/-- `KronSum.__init__` (operators.py lines 191-195): identical to
`Kronecker.__init__` — no validation of any kind (in particular non-square
operands, for which `A ⊗ I + I ⊗ B` is ill-formed, are accepted). -/
def KronSum_init (Ms : List OpSig) : PartialOp × Option InitErr :=
  Kronecker_init Ms

/-! ## A small NumPy-array model (shapes + broadcasting)

`Tridiagonal._matmat` multiplies the stored diagonals elementwise against
(slices of) the input `X`; whether that computes the banded stencil depends
on NumPy broadcasting, so for this one operator the arrays are embedded with
explicit shapes.  `data` is total over multi-indices; entries outside the
shape are junk. -/

structure NpArr where
  shape : List ℕ
  data : List ℕ → ℚ

/-- Broadcast two dimension sizes (NumPy rule: equal, or one of them is 1). -/
def bdim (a b : ℕ) : Option ℕ :=
  if a = b then some a else if a = 1 then some b else if b = 1 then some a else none

/-- Broadcast two reversed (rightmost-first) shape lists. -/
def bshapeRev : List ℕ → List ℕ → Option (List ℕ)
  | [], t => some t
  | s, [] => some s
  | a :: s, b :: t => do
    let d ← bdim a b
    let rest ← bshapeRev s t
    pure (d :: rest)

/-- NumPy broadcast of two shapes (right-aligned). -/
def bcastShape (s t : List ℕ) : Option (List ℕ) :=
  (bshapeRev s.reverse t.reverse).map List.reverse

/-- Index of an operand of shape `s` corresponding to result multi-index
`idx`: drop the leading broadcast axes, clamp size-1 axes to 0. -/
def opIndex (s idx : List ℕ) : List ℕ :=
  (idx.drop (idx.length - s.length)).zipWith (fun c d => if d = 1 then 0 else c) s

/-- Elementwise binary operation with NumPy broadcasting. -/
def ebin (f : ℚ → ℚ → ℚ) (A B : NpArr) : Option NpArr :=
  (bcastShape A.shape B.shape).map fun sh =>
    ⟨sh, fun idx => f (A.data (opIndex A.shape idx)) (B.data (opIndex B.shape idx))⟩

def bmul : NpArr → NpArr → Option NpArr := ebin (· * ·)

def badd : NpArr → NpArr → Option NpArr := ebin (· + ·)

/-- `xnp.zeros(shape=X.shape)`. -/
def zerosLike (X : NpArr) : NpArr := ⟨X.shape, fun _ => 0⟩

/-- `X[:-1]` along axis 0. -/
def dropLastRow (X : NpArr) : NpArr :=
  ⟨match X.shape with | [] => [] | d :: rest => (d - 1) :: rest, X.data⟩

/-- `X[1:]` along axis 0. -/
def dropFirstRow (X : NpArr) : NpArr :=
  ⟨match X.shape with | [] => [] | d :: rest => (d - 1) :: rest,
   fun idx => X.data (match idx with | [] => [] | r :: rest => (r + 1) :: rest)⟩

/-- Position of row index `r` in the fancy-index list `ind` (the index lists
used by `Tridiagonal._matmat` are duplicate-free, so first match suffices). -/
def idxIn : List ℕ → ℕ → Option ℕ
  | [], _ => none
  | a :: rest, r =>
    if a = r then some 0 else (idxIn rest r).map (· + 1)

/-- `xnp.update_array(arr, vals, ind)` with a list of row indices:
`arr[ind] = vals`.  Requires `vals` to have exactly the shape of the
indexed region (which is the case in every use below). -/
def update_rows (arr vals : NpArr) (ind : List ℕ) : Option NpArr :=
  if vals.shape = ind.length :: arr.shape.tail then
    some ⟨arr.shape, fun idx =>
      match idx with
      | [] => arr.data []
      | r :: rest =>
        match idxIn ind r with
        | some t => vals.data (t :: rest)
        | none => arr.data (r :: rest)⟩
  else none

/-- `Tridiagonal._matmat` (operators.py lines 283-297), embedded over the
array model: `output = beta * X`; `aux_alpha[1:] = alpha * X[:-1]`;
`aux_gamma[:-1] = gamma * X[1:]`; the three are summed.  All products and
sums broadcast by the NumPy rules; `none` models a raised broadcast error. -/
def Tridiagonal_matmat (alpha beta gamma X : NpArr) : Option NpArr := do
  let aux_alpha := zerosLike X
  let aux_gamma := zerosLike X
  let output ← bmul beta X
  let va ← bmul alpha (dropLastRow X)
  let aux_alpha ← update_rows aux_alpha va ((List.range (alpha.shape.headD 0)).map (· + 1))
  let output ← badd output aux_alpha
  let vg ← bmul gamma (dropFirstRow X)
  let aux_gamma ← update_rows aux_gamma vg (List.range (gamma.shape.headD 0))
  let output ← badd output aux_gamma
  pure output

/-- A 1-D array of length `m` over the array model (shape `(m,)`). -/
def vecArr (m : ℕ) (v : ℕ → ℚ) : NpArr := ⟨[m], fun idx => v (idx.headD 0)⟩

/-- A column vector of length `m` over the array model (shape `(m, 1)`). -/
def colVec (m : ℕ) (v : ℕ → ℚ) : NpArr := ⟨[m, 1], fun idx => v (idx.headD 0)⟩

/-- An `(n, k)` matrix over the array model. -/
def matArr (n k : ℕ) (X : ℕ → ℕ → ℚ) : NpArr :=
  ⟨[n, k], fun idx => X (idx.headD 0) (idx.tail.headD 0)⟩

/-! ## Kronecker products on flat row-major data (operators.py 155-178)

Operands of `Kronecker` are identified with their dense matrices (`Mat`,
entries total over `ℕ × ℕ`, junk outside `r × c`).  `numpy.reshape` is the
identity on row-major flat data, so `Kronecker._matmat`'s
reshape/moveaxis/matmul dance becomes flat index arithmetic. -/

structure Mat where
  r : ℕ
  c : ℕ
  entry : ℕ → ℕ → ℚ

/-- `product([Mi.shape[-2] for Mi in Ms])`. -/
def rowsProd (Ms : List Mat) : ℕ := (Ms.map Mat.r).prod

/-- `product([Mi.shape[-1] for Mi in Ms])`. -/
def colsProd (Ms : List Mat) : ℕ := (Ms.map Mat.c).prod

/-- `np.kron(A, B)`: entry `(i, j)` is `A[i / rB, j / cB] * B[i % rB, j % cB]`. -/
def kron (A B : Mat) : Mat :=
  ⟨A.r * B.r, A.c * B.c,
   fun i j => A.entry (i / B.r) (j / B.c) * B.entry (i % B.r) (j % B.c)⟩

/-- Neutral 1×1 matrix for iterated Kronecker products. -/
def idMat : Mat := ⟨1, 1, fun _ _ => 1⟩

/-- Right fold of `kron` (used as the induction-friendly form; equals the
source's left-fold `reduce`, see `Kronecker_to_dense_eq_foldr`). -/
def kronFoldr : List Mat → Mat
  | [] => idMat
  | M :: rest => kron M (kronFoldr rest)

/-- `Kronecker.to_dense` (operators.py lines 173-175): `reduce(xnp.kron, Ms)`
(a left fold over the nonempty operand list). -/
def Kronecker_to_dense : List Mat → Mat
  | [] => idMat
  | M :: rest => rest.foldl kron M

/-- `xnp.moveaxis(T, i, 0)` on flat row-major data, with the axes of `T`
grouped as (pre, c, post): the value at flat position of multi-index
`(q, a, b)` in the moved layout is the value at `(a, q, b)` in the old one. -/
def moveToFront (pre c post : ℕ) (T : ℕ → ℚ) : ℕ → ℚ := fun idx =>
  T ((idx % (pre * post) / post) * (c * post) + (idx / (pre * post)) * post + idx % post)

/-- `xnp.moveaxis(U, 0, i)`: inverse of `moveToFront`, axes (r, pre, post)
back to (pre, r, post). -/
def moveFromFront (pre r post : ℕ) (U : ℕ → ℚ) : ℕ → ℚ := fun idx =>
  U ((idx / post % r) * (pre * post) + (idx / (r * post)) * post + idx % post)

/-- `M @ Y` where `Y` is the `(M.c, rest)` matrix view of a flat array
(`ev_front.reshape(M.shape[-1], -1)`), the result flattened back. -/
def matFlat (M : Mat) (rest : ℕ) (T : ℕ → ℚ) : ℕ → ℚ := fun idx =>
  ∑ q ∈ Finset.range M.c, M.entry (idx / rest) q * T (q * rest + idx % rest)

/-- One iteration of the `for i, M in enumerate(self.Ms)` loop of
`Kronecker._matmat` (operators.py lines 166-170): move axis `i` (block
structure (pre, ·, post)) to the front, left-multiply by `M`, move it back. -/
def kronStep (M : Mat) (pre post : ℕ) (T : ℕ → ℚ) : ℕ → ℚ :=
  moveFromFront pre M.r post (matFlat M (pre * post) (moveToFront pre M.c post T))

/-- The full loop of `Kronecker._matmat`: operand `i` sees
`pre = r₀⋯r_{i-1}` leading block, `post = c_{i+1}⋯c_{k-1}·batch` trailing
block. -/
def Kronecker_matmat_loop : List Mat → ℕ → ℕ → (ℕ → ℚ) → (ℕ → ℚ)
  | [], _, _, T => T
  | M :: rest, pre, batch, T =>
      Kronecker_matmat_loop rest (pre * M.r) batch (kronStep M pre (colsProd rest * batch) T)

/-- `Kronecker._matmat(v)` (operators.py lines 164-171) on the flat
row-major data of `v` of shape `(colsProd Ms, batch)`; the enclosing
reshapes are the identity on the flat data. -/
def Kronecker_matmat (Ms : List Mat) (batch : ℕ) (v : ℕ → ℚ) : ℕ → ℚ :=
  Kronecker_matmat_loop Ms 1 batch v

/-- Shape computed by `Kronecker.__init__` (operators.py line 160). -/
def Kronecker_shape (Ms : List Mat) : ℕ × ℕ := (rowsProd Ms, colsProd Ms)

/-! ## Householder construction, Givens/QR and CG-Lanczos (over ℝ) -/

noncomputable section

/-- `sigma_2 = xnp.norm(x[idx + 1:])**2.` (operators.py line 40). -/
def ghv_sigma2 (n idx : ℕ) (x : ℕ → ℝ) : ℝ :=
  Real.sqrt (∑ i ∈ Finset.Ico (idx + 1) n, x i ^ 2) ^ 2

/-- `vec = update_array(zeros_like(x), x[idx:], slice(idx, None))`
(operators.py lines 41-42). -/
def ghv_vec (n idx : ℕ) (x : ℕ → ℝ) : ℕ → ℝ := fun i =>
  if idx ≤ i ∧ i < n then x i else 0

/-- `x_norm_partial = xnp.sqrt(x[idx]**2 + sigma_2)` (operators.py line 48). -/
def ghv_xnorm (n idx : ℕ) (x : ℕ → ℝ) : ℝ :=
  Real.sqrt (x idx ^ 2 + ghv_sigma2 n idx x)

/-- The two sign-dependent pivot updates (operators.py lines 49-52). -/
def ghv_vec1 (n idx : ℕ) (x : ℕ → ℝ) : ℕ → ℝ :=
  if x idx ≤ 0 then
    Function.update (ghv_vec n idx x) idx (x idx - ghv_xnorm n idx x)
  else
    Function.update (ghv_vec n idx x) idx
      (-(ghv_sigma2 n idx x) / (x idx + ghv_xnorm n idx x))

/-- `beta = 2 * vec[idx]**2 / (sigma_2 + vec[idx]**2)` (operators.py line 53). -/
def ghv_beta (n idx : ℕ) (x : ℕ → ℝ) : ℝ :=
  2 * ghv_vec1 n idx x idx ^ 2 / (ghv_sigma2 n idx x + ghv_vec1 n idx x idx ^ 2)

/-- `vec = vec / vec[idx]` (operators.py line 54). -/
def ghv_vec2 (n idx : ℕ) (x : ℕ → ℝ) : ℕ → ℝ := fun i =>
  ghv_vec1 n idx x i / ghv_vec1 n idx x idx

/-- `vec = update_array(vec, vec[idx:] / vec[idx], slice(idx, None))`
(operators.py line 55). -/
def ghv_vec3 (n idx : ℕ) (x : ℕ → ℝ) : ℕ → ℝ := fun i =>
  if idx ≤ i then ghv_vec2 n idx x i / ghv_vec2 n idx x idx else ghv_vec2 n idx x i

/-- `get_householder_vec(x, idx)` (operators.py lines 36-56) on a length-`n`
real vector, assembled from the statement-by-statement embeddings above
(`ghv_sigma2`, `ghv_vec`, `ghv_xnorm`, `ghv_vec1`, `ghv_beta`, `ghv_vec2`,
`ghv_vec3`). -/
def get_householder_vec (n idx : ℕ) (x : ℕ → ℝ) : (ℕ → ℝ) × ℝ :=
  if ghv_sigma2 n idx x = 0 ∧ 0 ≤ x idx then (ghv_vec n idx x, 0)
  else if ghv_sigma2 n idx x = 0 ∧ x idx < 0 then (ghv_vec n idx x, -2)
  else (ghv_vec3 n idx x, ghv_beta n idx x)

/-- The reflector `I - beta·v·vᵀ` applied to `x` (length `n`): the operation
the specification asserts `get_householder_vec` supports. -/
def apply_reflector (n : ℕ) (v : ℕ → ℝ) (beta : ℝ) (x : ℕ → ℝ) : ℕ → ℝ :=
  fun i => x i - beta * (∑ j ∈ Finset.range n, v j * x j) * v i

/-- `get_givens_cos_sin(a, b)` (gmres.py lines 83-90). -/
def get_givens_cos_sin (a b : ℝ) : ℝ × ℝ :=
  if b = 0 then (1, 0)
  else (a / Real.sqrt (a ^ 2 + b ^ 2), -b / Real.sqrt (a ^ 2 + b ^ 2))

/-- In-place `update_array(R, G.T @ R[[j, j+1], :], [j, j+1])` with
`G = [[c, s], [-s, c]]`: rows `j`, `j+1` are replaced by
`(c·Rⱼ - s·Rⱼ₊₁, s·Rⱼ + c·Rⱼ₊₁)`. -/
def rot_rows (c s : ℝ) (j : ℕ) (R : ℕ → ℕ → ℝ) : ℕ → ℕ → ℝ := fun i l =>
  if i = j then c * R j l - s * R (j + 1) l
  else if i = j + 1 then s * R j l + c * R (j + 1) l
  else R i l

/-- The same 2-row update on a column vector. -/
def rot_vec (c s : ℝ) (j : ℕ) (v : ℕ → ℝ) : ℕ → ℝ := fun i =>
  if i = j then c * v j - s * v (j + 1)
  else if i = j + 1 then s * v j + c * v (j + 1)
  else v i

/-- `get_hessenberg_triangular_qr(H)` (gmres.py lines 64-73) for `H` with
`rows` rows: for each `jdx < rows - 1`, form the Givens pair from the
current `(R[jdx,jdx], R[jdx+1,jdx])`, rotate rows `jdx, jdx+1` in place and
append the rotation to the list `Gs`. -/
def get_hessenberg_triangular_qr (rows : ℕ) (H : ℕ → ℕ → ℝ) :
    (ℕ → ℕ → ℝ) × List (ℝ × ℝ) :=
  (List.range (rows - 1)).foldl
    (fun st j =>
      let cs := get_givens_cos_sin (st.1 j j) (st.1 (j + 1) j)
      (rot_rows cs.1 cs.2 j st.1, st.2 ++ [cs]))
    (H, [])

/-- `apply_givens_fwd(Gs, vec)` (gmres.py lines 76-80): replay rotation
`Gs[jdx]` on rows `jdx, jdx+1` of the vector, in order. -/
def apply_givens_fwd (Gs : List (ℝ × ℝ)) (v : ℕ → ℝ) : ℕ → ℝ :=
  Gs.enum.foldl (fun w p => rot_vec p.2.1 p.2.2 p.1 w) v

/-- One loop iteration of `get_hessenberg_triangular_qr` acting on the
matrix alone (the Givens pair is recomputed from the current matrix). -/
def qr_rstep (R : ℕ → ℕ → ℝ) (j : ℕ) : ℕ → ℕ → ℝ :=
  rot_rows (get_givens_cos_sin (R j j) (R (j + 1) j)).1
    (get_givens_cos_sin (R j j) (R (j + 1) j)).2 j R

/-- The list `Gs` accumulated by `get_hessenberg_triangular_qr` over a list
of step indices. -/
def qr_gs : List ℕ → (ℕ → ℕ → ℝ) → List (ℝ × ℝ)
  | [], _ => []
  | j :: L, R => get_givens_cos_sin (R j j) (R (j + 1) j) :: qr_gs L (qr_rstep R j)

/-- The recorded rotations replayed on a vector, step by step (used to
relate `apply_givens_fwd` on the accumulated `Gs` to the fold). -/
def qr_vec : List ℕ → (ℕ → ℕ → ℝ) → (ℕ → ℝ) → (ℕ → ℝ)
  | [], _, v => v
  | j :: L, R, v =>
    qr_vec L (qr_rstep R j)
      (rot_vec (get_givens_cos_sin (R j j) (R (j + 1) j)).1
        (get_givens_cos_sin (R j j) (R (j + 1) j)).2 j v)

/-- `soln = x0 + Q @ y` (gmres.py line 55), the tail of `gmres` shared by
both least-squares strategies (`y` of length `m`). -/
def gmres_soln (m : ℕ) (x0 : ℕ → ℝ) (Q : ℕ → ℕ → ℝ) (y : ℕ → ℝ) : ℕ → ℝ :=
  fun i => x0 i + ∑ b ∈ Finset.range m, Q i b * y b

/-- Dot product of length-`n` vectors (`v.T @ w`, `np.linalg.norm(v)**2`
when `w = v`). -/
def dotn (n : ℕ) (f g : ℕ → ℝ) : ℝ := ∑ i ∈ Finset.range n, f i * g i

/-- Dense matrix-vector product `A @ v` for an `n × n` matrix. -/
def matvec (A : ℕ → ℕ → ℝ) (n : ℕ) (v : ℕ → ℝ) : ℕ → ℝ := fun i =>
  ∑ t ∈ Finset.range n, A i t * v t

/-- State of `run_cg_lanczos` (test_cg.py): the 2-D arrays are stored
column-major (`x j i` = entry `i` of column `j`), matching the Python
column writes `x[:, k] = …`. -/
structure CgState where
  x : ℕ → ℕ → ℝ
  alpha : ℕ → ℝ
  beta : ℕ → ℝ
  k : ℕ
  res : ℕ → ℕ → ℝ
  q : ℕ → ℕ → ℝ
  des : ℕ → ℕ → ℝ
  dir : ℕ → ℝ
  nu : ℕ → ℝ
  gamma : ℕ → ℝ

/-- `initialize_cg_lanczos(A, rhs, x0, max_iters)` (test_cg.py lines
267-283): all arrays zero, then `x[:,0] = x0`, `res[:,0] = rhs - A @ x[:,0]`,
`alpha[0] = ‖res[:,0]‖`. -/
def initialize_cg_lanczos (A : ℕ → ℕ → ℝ) (n : ℕ) (rhs x0 : ℕ → ℝ) : CgState :=
  let res0 : ℕ → ℝ := fun i => rhs i - matvec A n x0 i
  ⟨Function.update (fun _ _ => 0) 0 x0,
   Function.update (fun _ => 0) 0 (Real.sqrt (dotn n res0 res0)),
   fun _ => 0, 0,
   Function.update (fun _ _ => 0) 0 res0,
   fun _ _ => 0, fun _ _ => 0, fun _ => 0, fun _ => 0, fun _ => 0⟩

/-- One trip of the `while` body of `run_cg_lanczos` (test_cg.py lines
247-263): write `q[:,k+1]`, increment `k`, compute `Aq`, `beta[k]`, the
direction/step bookkeeping (`dir`, `nu`, `des`, `gamma`), then `x[:,k]`,
`res[:,k]`, `alpha[k]`. -/
def cgStep (A : ℕ → ℕ → ℝ) (n : ℕ) (s : CgState) : CgState :=
  let q1 := Function.update s.q (s.k + 1) (fun i => s.res s.k i / s.alpha s.k)
  let k := s.k + 1
  let Aq : ℕ → ℝ := matvec A n (q1 k)
  let beta1 := Function.update s.beta k (dotn n (q1 k) Aq)
  let dng :=
    if k = 1 then
      let dir1 := Function.update s.dir 1 (beta1 1)
      let nu1 := Function.update s.nu 1 (s.alpha 0 / dir1 1)
      let des1 := Function.update s.des 1 (q1 1)
      (dir1, nu1, des1, s.gamma)
    else
      let gamma1 := Function.update s.gamma (k - 1) (s.alpha (k - 1) / s.dir (k - 1))
      let dir1 := Function.update s.dir k (beta1 k - s.alpha (k - 1) * gamma1 (k - 1))
      let nu1 := Function.update s.nu k (-(s.alpha (k - 1) * s.nu (k - 1)) / dir1 k)
      let des1 := Function.update s.des k
        (fun i => q1 k i - gamma1 (k - 1) * s.des (k - 1) i)
      (dir1, nu1, des1, gamma1)
  let x1 := Function.update s.x k (fun i => s.x (k - 1) i + dng.2.1 k * dng.2.2.1 k i)
  let res1 := Function.update s.res k
    (fun i => Aq i - beta1 k * q1 k i - s.alpha (k - 1) * q1 (k - 1) i)
  let alpha1 := Function.update s.alpha k (Real.sqrt (dotn n (res1 k) (res1 k)))
  ⟨x1, alpha1, beta1, k, res1, q1, dng.2.2.1, dng.1, dng.2.1, dng.2.2.2⟩

/-- The `while ((alpha[k] > tolerance) & (k < max_iters - 1))` loop, with
explicit fuel; any fuel of at least `max_iters` yields the same state, since
`k` increases by 1 each iteration and the guard needs `k < max_iters - 1`. -/
def cgLoop (A : ℕ → ℕ → ℝ) (n : ℕ) (tol : ℝ) (max_iters : ℕ) : ℕ → CgState → CgState
  | 0, s => s
  | fuel + 1, s =>
    if tol < s.alpha s.k ∧ s.k < max_iters - 1 then
      cgLoop A n tol max_iters fuel (cgStep A n s)
    else s

/-- `run_cg_lanczos(A, rhs, x0, max_iters, tolerance)` (test_cg.py lines
243-264).  The Python function returns the fields
`(x, alpha, beta, q, k, res)` of this state. -/
def run_cg_lanczos (A : ℕ → ℕ → ℝ) (n : ℕ) (rhs x0 : ℕ → ℝ)
    (max_iters : ℕ) (tol : ℝ) : CgState :=
  cgLoop A n tol max_iters max_iters (initialize_cg_lanczos A n rhs x0)

/-- `construct_tri(band, diag)` (test_cg.py lines 286-298) for `dim ≥ 2`:
the net effect of its loop is `T[i,i] = diag[i]`, `T[i,i+1] = band[i]`,
`T[i,i-1] = band[i-1]`, zero elsewhere.  (For `dim = 1` the Python loop
raises an IndexError reading `band[0]`.) -/
def construct_tri (band diag : ℕ → ℝ) (dim : ℕ) : ℕ → ℕ → ℝ := fun i j =>
  if i < dim ∧ j < dim then
    (if i = j then diag i else if i + 1 = j then band i
     else if j + 1 = i then band j else 0)
  else 0

/-- Loop invariant of `run_cg_lanczos`: the written `q` columns are the
normalized residual directions, `alpha`/`beta` store the recurrence
coefficients, the three-term residual recurrence holds, and the columns
`q 1 .. q k` are orthonormal. -/
structure CgInv (A : ℕ → ℕ → ℝ) (n : ℕ) (tol : ℝ) (s : CgState) : Prop where
  q_zero : ∀ i, s.q 0 i = 0
  alpha_norm : ∀ j, j ≤ s.k → s.alpha j = Real.sqrt (dotn n (s.res j) (s.res j))
  beta_def : ∀ j, 1 ≤ j → j ≤ s.k → s.beta j = dotn n (s.q j) (matvec A n (s.q j))
  res_rec : ∀ j, 1 ≤ j → j ≤ s.k → ∀ i,
    s.res j i = matvec A n (s.q j) i - s.beta j * s.q j i - s.alpha (j - 1) * s.q (j - 1) i
  q_from_res : ∀ j, j < s.k →
    tol < s.alpha j ∧ ∀ i, s.q (j + 1) i = s.res j i / s.alpha j
  orth : ∀ a b, 1 ≤ a → a ≤ s.k → 1 ≤ b → b ≤ s.k →
    dotn n (s.q a) (s.q b) = if a = b then 1 else 0

/-- Concrete symmetric 3×3 matrix `[[-3,0,1],[0,5,1],[1,1,1]]` used to probe
`run_cg_lanczos` (its Lanczos process started from `(2,1,2)ᵀ` has exactly
rational iterates). -/
def cexA : ℕ → ℕ → ℝ := fun i j =>
  if i = 0 then (if j = 0 then -3 else if j = 1 then 0 else if j = 2 then 1 else 0)
  else if i = 1 then (if j = 0 then 0 else if j = 1 then 5 else if j = 2 then 1 else 0)
  else if i = 2 then (if j = 0 then 1 else if j = 1 then 1 else if j = 2 then 1 else 0)
  else 0

/-- Concrete right-hand side `(2, 1, 2)ᵀ`. -/
def cexRhs : ℕ → ℝ := fun i => if i = 0 then 2 else if i = 1 then 1 else if i = 2 then 2 else 0

/-- `run_cg_lanczos(cexA, cexRhs, 0, max_iters = 3, tolerance = 1/100)`. -/
def cexRun : CgState := run_cg_lanczos cexA 3 cexRhs (fun _ => 0) 3 (1 / 100)

/-- The initial state of the probe run. -/
def cexS0 : CgState := initialize_cg_lanczos cexA 3 cexRhs (fun _ => 0)

/-- The probe state after one loop iteration. -/
def cexS1 : CgState := cgStep cexA 3 cexS0

/-- The probe state after two loop iterations. -/
def cexS2 : CgState := cgStep cexA 3 cexS1

end

/-! ## Theorems -/

/-! ### C5 — construction-time validation -/

/-- C5 counterexample: the claim says a composite whose operands have
mismatched dtypes fails at construction.  `Sum` of a float32 and a float64
operand of equal shape constructs successfully (no constructor inspects
dtypes beyond copying `Ms[0].dtype`). -/
theorem Sum_init_ignores_dtype_cex :
    (Sum_init [⟨(2, 2), DType.f32⟩, ⟨(2, 2), DType.f64⟩]).2 = none ∧
      DType.f32 ≠ DType.f64 := by
  exact ⟨by decide, by decide⟩

/-- C5 (amended): `Sum` and `Product` validate operand shapes at
construction — `Sum` succeeds iff all operands share the first operand's
shape, `Product` iff every adjacent pair has matching inner dimensions —
while `Kronecker` and `KronSum` never fail on nonempty operand lists and no
constructor validates dtypes (the characterizations do not mention them). -/
theorem composite_init_shape_validation (Ms : List OpSig) (hne : Ms ≠ []) :
    ((Sum_init Ms).2 = none ↔ ∀ M ∈ Ms, M.shape = (Ms.head hne).shape) ∧
    ((Product_init Ms).2 = none ↔ ∀ p ∈ Ms.zip Ms.tail, p.1.shape.2 = p.2.shape.1) ∧
    (Kronecker_init Ms).2 = none ∧ (KronSum_init Ms).2 = none := by
  match Ms with
  | [] => exact absurd rfl hne
  | M0 :: rest =>
    refine ⟨?_, ?_, ?_, ?_⟩
    · simp only [Sum_init, List.head_cons]
      split_ifs with h <;> simp only [List.all_eq_true, decide_eq_true_eq] at h <;> simp [h]
      · exact fun a ha => h a (List.mem_cons_of_mem _ ha)
      · push_neg at h
        obtain ⟨x, hx, hnx⟩ := h
        rcases List.mem_cons.mp hx with rfl | hxr
        · exact absurd rfl hnx
        · exact ⟨x, hxr, hnx⟩
    · simp only [Product_init]
      split_ifs with h <;> simp only [List.all_eq_true, decide_eq_true_eq] at h <;> simp [h]
      · exact fun a b hab => h (a, b) hab
      · push_neg at h
        obtain ⟨p, hp, hnp⟩ := h
        exact ⟨p.1, p.2, hp, hnp⟩
    · simp [Kronecker_init]
    · simp [KronSum_init, Kronecker_init]

/-- Witness for `composite_init_shape_validation` at a concrete two-operand
list. -/
theorem composite_init_shape_validation_witness :
    ([⟨(2, 3), DType.f32⟩, ⟨(3, 4), DType.f32⟩] : List OpSig) ≠ [] ∧
    (((Sum_init [⟨(2, 3), DType.f32⟩, ⟨(3, 4), DType.f32⟩]).2 = none ↔
        ∀ M ∈ ([⟨(2, 3), DType.f32⟩, ⟨(3, 4), DType.f32⟩] : List OpSig),
          M.shape = (([⟨(2, 3), DType.f32⟩, ⟨(3, 4), DType.f32⟩] : List OpSig).head
            (by decide)).shape) ∧
      ((Product_init [⟨(2, 3), DType.f32⟩, ⟨(3, 4), DType.f32⟩]).2 = none ↔
        ∀ p ∈ (([⟨(2, 3), DType.f32⟩, ⟨(3, 4), DType.f32⟩] : List OpSig).zip
            ([⟨(2, 3), DType.f32⟩, ⟨(3, 4), DType.f32⟩] : List OpSig).tail),
          p.1.shape.2 = p.2.shape.1) ∧
      (Kronecker_init [⟨(2, 3), DType.f32⟩, ⟨(3, 4), DType.f32⟩]).2 = none ∧
      (KronSum_init [⟨(2, 3), DType.f32⟩, ⟨(3, 4), DType.f32⟩]).2 = none) :=
  ⟨by decide, composite_init_shape_validation _ (by decide)⟩

/-! ### C7 — validation order inside `__init__` -/

/-- C7 counterexample: the claim says validation happens before any field is
set.  A `Sum` of shape-(2,2) and shape-(3,3) operands raises the dimension
mismatch, and the raising object already has its `Ms` field assigned. -/
theorem Sum_init_field_set_before_validation_cex :
    (Sum_init [⟨(2, 2), DType.f32⟩, ⟨(3, 3), DType.f32⟩]).2 =
        some InitErr.dimensionMismatch ∧
      (Sum_init [⟨(2, 2), DType.f32⟩, ⟨(3, 3), DType.f32⟩]).1.Ms ≠ none := by
  exact ⟨by decide, by decide⟩

/-- C7 (amended): in `Sum.__init__` and `Product.__init__` the statement
`self.Ms = Ms` precedes validation, so a failed construction leaves an
object whose `Ms` field is assigned while `shape` and `dtype` are not. -/
theorem init_validation_after_Ms_assignment (Ms : List OpSig) :
    ((Sum_init Ms).2 ≠ none → (Sum_init Ms).1 = ⟨some Ms, none, none⟩) ∧
    ((Product_init Ms).2 ≠ none → (Product_init Ms).1 = ⟨some Ms, none, none⟩) := by
  constructor
  · intro herr
    match Ms with
    | [] => rfl
    | M0 :: rest =>
      simp only [Sum_init] at herr ⊢
      split_ifs at herr ⊢ with h
      · simp at herr
      · rfl
  · intro herr
    simp only [Product_init] at herr ⊢
    split_ifs at herr ⊢ with h
    · match Ms with
      | [] => rfl
      | M0 :: rest => simp at herr
    · rfl

/-- Witness for `init_validation_after_Ms_assignment`: both raising
constructions at concrete mismatched operands. -/
theorem init_validation_after_Ms_assignment_witness :
    ((Sum_init [⟨(2, 2), DType.f32⟩, ⟨(3, 3), DType.f32⟩]).2 ≠ none ∧
      (Sum_init [⟨(2, 2), DType.f32⟩, ⟨(3, 3), DType.f32⟩]).1 =
        ⟨some [⟨(2, 2), DType.f32⟩, ⟨(3, 3), DType.f32⟩], none, none⟩) ∧
    ((Product_init [⟨(2, 3), DType.f32⟩, ⟨(4, 5), DType.f32⟩]).2 ≠ none ∧
      (Product_init [⟨(2, 3), DType.f32⟩, ⟨(4, 5), DType.f32⟩]).1 =
        ⟨some [⟨(2, 3), DType.f32⟩, ⟨(4, 5), DType.f32⟩], none, none⟩) :=
  ⟨⟨by decide, (init_validation_after_Ms_assignment _).1 (by decide)⟩,
   ⟨by decide, (init_validation_after_Ms_assignment _).2 (by decide)⟩⟩

/-! ### C9 / C2 — Householder vector construction -/

/-- The squared sub-pivot norm computed by `get_householder_vec` equals the
exact sum of squares. -/
theorem sigma2_eq (n idx : ℕ) (x : ℕ → ℝ) :
    ghv_sigma2 n idx x = ∑ i ∈ Finset.Ico (idx + 1) n, x i ^ 2 :=
  Real.sq_sqrt (Finset.sum_nonneg fun i _ => sq_nonneg (x i))

/-- C9: on a vector whose entries strictly below the pivot all vanish,
`get_householder_vec` returns `beta = 0` when the pivot entry is
nonnegative and `beta = -2` when it is negative. -/
theorem get_householder_vec_degenerate_beta (n idx : ℕ) (x : ℕ → ℝ)
    (hz : ∀ i ∈ Finset.Ico (idx + 1) n, x i = 0) :
    (0 ≤ x idx → (get_householder_vec n idx x).2 = 0) ∧
    (x idx < 0 → (get_householder_vec n idx x).2 = -2) := by
  have hs : (∑ i ∈ Finset.Ico (idx + 1) n, x i ^ 2) = 0 :=
    Finset.sum_eq_zero fun i hi => by rw [hz i hi]; ring
  have hsig : ghv_sigma2 n idx x = 0 := by rw [sigma2_eq, hs]
  constructor
  · intro hx
    simp only [get_householder_vec]
    rw [if_pos ⟨hsig, hx⟩]
  · intro hx
    simp only [get_householder_vec]
    rw [if_neg, if_pos ⟨hsig, hx⟩]
    rintro ⟨-, h0⟩
    exact absurd h0 (not_le.mpr hx)

/-- Witness for `get_householder_vec_degenerate_beta`: the vector `(-1)` of
length 1 with pivot 0 (empty sub-pivot range, negative pivot entry). -/
theorem get_householder_vec_degenerate_beta_witness :
    (∀ i ∈ Finset.Ico 1 1, (fun _ : ℕ => (-1 : ℝ)) i = 0) ∧
    ((fun _ : ℕ => (-1 : ℝ)) 0 < 0 →
      (get_householder_vec 1 0 (fun _ : ℕ => (-1 : ℝ))).2 = -2) :=
  ⟨by simp, (get_householder_vec_degenerate_beta 1 0 (fun _ : ℕ => (-1 : ℝ)) (by simp)).2⟩

/-- `x_norm_partial` squared is the exact partial norm squared. -/
theorem ghv_xnorm_sq (n idx : ℕ) (x : ℕ → ℝ) :
    ghv_xnorm n idx x ^ 2 = x idx ^ 2 + ∑ j ∈ Finset.Ico (idx + 1) n, x j ^ 2 := by
  unfold ghv_xnorm
  rw [Real.sq_sqrt (by rw [sigma2_eq]; positivity), sigma2_eq]

/-- In the non-degenerate case the pivot entry of `vec` after the update is
negative (the numerically stable sign choice). -/
theorem ghv_xnorm_neg (n idx : ℕ) (x : ℕ → ℝ)
    (hSpos : 0 < ∑ j ∈ Finset.Ico (idx + 1) n, x j ^ 2) :
    x idx - ghv_xnorm n idx x < 0 := by
  have h2 := ghv_xnorm_sq n idx x
  have h0 : 0 ≤ ghv_xnorm n idx x := Real.sqrt_nonneg _
  nlinarith [sq_nonneg (x idx + ghv_xnorm n idx x), sq_nonneg (x idx - ghv_xnorm n idx x)]

/-- Both sign branches of the pivot update produce `x[idx] - x_norm_partial`
(the `x[idx] > 0` branch computes it as `-sigma_2 / (x[idx] + x_norm)`). -/
theorem ghv_vec1_piv (n idx : ℕ) (x : ℕ → ℝ)
    (_hSpos : 0 < ∑ j ∈ Finset.Ico (idx + 1) n, x j ^ 2) :
    ghv_vec1 n idx x idx = x idx - ghv_xnorm n idx x := by
  unfold ghv_vec1
  split_ifs with hc
  · rw [Function.update_same]
  · rw [Function.update_same]
    push_neg at hc
    have h0 : 0 ≤ ghv_xnorm n idx x := Real.sqrt_nonneg _
    have hden : 0 < x idx + ghv_xnorm n idx x := by linarith
    rw [div_eq_iff hden.ne', sigma2_eq]
    linear_combination ghv_xnorm_sq n idx x

/-- Away from the pivot the update leaves `vec` unchanged. -/
theorem ghv_vec1_ne (n idx : ℕ) (x : ℕ → ℝ) (j : ℕ) (hj : j ≠ idx) :
    ghv_vec1 n idx x j = ghv_vec n idx x j := by
  unfold ghv_vec1
  split_ifs <;> rw [Function.update_noteq hj]

/-- After the two normalizations the pivot entry of the returned vector is 1. -/
theorem ghv_vec3_pivot (n idx : ℕ) (x : ℕ → ℝ)
    (hSpos : 0 < ∑ j ∈ Finset.Ico (idx + 1) n, x j ^ 2) :
    ghv_vec3 n idx x idx = 1 := by
  have hW : x idx - ghv_xnorm n idx x ≠ 0 := ne_of_lt (ghv_xnorm_neg n idx x hSpos)
  simp [ghv_vec3, ghv_vec2, ghv_vec1_piv n idx x hSpos, div_self hW]

/-- Away from the pivot the returned vector is `vec / (x[idx] - x_norm)`. -/
theorem ghv_vec3_apply (n idx : ℕ) (x : ℕ → ℝ)
    (hSpos : 0 < ∑ j ∈ Finset.Ico (idx + 1) n, x j ^ 2) (j : ℕ) (hj : j ≠ idx) :
    ghv_vec3 n idx x j = ghv_vec n idx x j / (x idx - ghv_xnorm n idx x) := by
  have hW : x idx - ghv_xnorm n idx x ≠ 0 := ne_of_lt (ghv_xnorm_neg n idx x hSpos)
  unfold ghv_vec3 ghv_vec2
  rw [ghv_vec1_piv n idx x hSpos, ghv_vec1_ne n idx x j hj, div_self hW]
  split_ifs with hij
  · rw [div_one]
  · rfl

/-- Scalar identity behind the reflector property: with `ν² = a² + S`,
`beta · (a + S/(a-ν)) = a - ν`. -/
theorem ghv_key (a S ν : ℝ) (hS : 0 < S) (hν2 : ν ^ 2 = a ^ 2 + S) (hν : 0 ≤ ν) :
    2 * (a - ν) ^ 2 / (S + (a - ν) ^ 2) * (a + S / (a - ν)) = a - ν := by
  have hW : a - ν < 0 := by nlinarith [sq_nonneg (a + ν), sq_nonneg (a - ν)]
  have hWne : a - ν ≠ 0 := ne_of_lt hW
  have hνpos : 0 < ν := by nlinarith
  have h1 : a + S / (a - ν) = (a * (a - ν) + S) / (a - ν) := by field_simp
  have h2 : a * (a - ν) + S = -ν * (a - ν) := by linear_combination -hν2
  have h3 : S + (a - ν) ^ 2 = -2 * ν * (a - ν) := by linear_combination -hν2
  rw [h1, h2, h3]
  field_simp
  ring

/-- The inner product `⟨v, x⟩` for the non-degenerate Householder vector. -/
theorem ghv_dot (n idx : ℕ) (x : ℕ → ℝ)
    (hSpos : 0 < ∑ j ∈ Finset.Ico (idx + 1) n, x j ^ 2) (hn : idx < n) :
    ∑ j ∈ Finset.range n, ghv_vec3 n idx x j * x j =
      x idx + (∑ j ∈ Finset.Ico (idx + 1) n, x j ^ 2) / (x idx - ghv_xnorm n idx x) := by
  rw [Finset.range_eq_Ico,
    ← Finset.sum_Ico_consecutive _ (Nat.zero_le (idx + 1)) (Nat.succ_le_of_lt hn)]
  have h2 : ∑ j ∈ Finset.Ico 0 (idx + 1), ghv_vec3 n idx x j * x j = x idx := by
    rw [← Finset.range_eq_Ico, Finset.sum_range_succ]
    have h3 : ∑ j ∈ Finset.range idx, ghv_vec3 n idx x j * x j = 0 :=
      Finset.sum_eq_zero fun j hj => by
        have hjlt := Finset.mem_range.mp hj
        rw [ghv_vec3_apply n idx x hSpos j (Nat.ne_of_lt hjlt)]
        have hz : ghv_vec n idx x j = 0 := by
          have hcond : ¬(idx ≤ j ∧ j < n) := fun hc => absurd hc.1 (Nat.not_le.mpr hjlt)
          simp only [ghv_vec]
          rw [if_neg hcond]
        rw [hz, zero_div, zero_mul]
    rw [h3, zero_add, ghv_vec3_pivot n idx x hSpos, one_mul]
  rw [h2]
  congr 1
  have h4 : ∀ j ∈ Finset.Ico (idx + 1) n, ghv_vec3 n idx x j * x j =
      x j ^ 2 / (x idx - ghv_xnorm n idx x) := fun j hj => by
    obtain ⟨hj1, hj2⟩ := Finset.mem_Ico.mp hj
    rw [ghv_vec3_apply n idx x hSpos j (by omega)]
    have hx : ghv_vec n idx x j = x j := by
      simp only [ghv_vec]
      rw [if_pos ⟨by omega, hj2⟩]
    rw [hx]
    ring
  rw [Finset.sum_congr rfl h4, ← Finset.sum_div]

/-- C2: applying the reflector `I - beta·v·vᵀ` built by
`get_householder_vec(x, idx)` to `x` zeroes every entry strictly below the
pivot (in all branches, including the degenerate zero sub-pivot-norm ones). -/
theorem get_householder_vec_zeroes_below_pivot (n idx i : ℕ) (x : ℕ → ℝ)
    (hii : idx < i) (hin : i < n) :
    apply_reflector n (get_householder_vec n idx x).1 (get_householder_vec n idx x).2 x i
      = 0 := by
  have hS0 : 0 ≤ ∑ j ∈ Finset.Ico (idx + 1) n, x j ^ 2 :=
    Finset.sum_nonneg fun j _ => sq_nonneg (x j)
  unfold get_householder_vec
  by_cases h1 : ghv_sigma2 n idx x = 0 ∧ 0 ≤ x idx
  · rw [if_pos h1]
    have hsum0 : ∑ j ∈ Finset.Ico (idx + 1) n, x j ^ 2 = 0 := by rw [← sigma2_eq]; exact h1.1
    have hxi : x i = 0 := by
      have hsq := (Finset.sum_eq_zero_iff_of_nonneg fun j _ => sq_nonneg (x j)).mp hsum0 i
        (Finset.mem_Ico.mpr ⟨hii, hin⟩)
      exact (pow_eq_zero_iff two_ne_zero).mp hsq
    simp [apply_reflector, hxi]
  · by_cases h2 : ghv_sigma2 n idx x = 0 ∧ x idx < 0
    · rw [if_neg h1, if_pos h2]
      have hsum0 : ∑ j ∈ Finset.Ico (idx + 1) n, x j ^ 2 = 0 := by
        rw [← sigma2_eq]; exact h2.1
      have hxi : x i = 0 := by
        have hsq := (Finset.sum_eq_zero_iff_of_nonneg fun j _ => sq_nonneg (x j)).mp hsum0 i
          (Finset.mem_Ico.mpr ⟨hii, hin⟩)
        exact (pow_eq_zero_iff two_ne_zero).mp hsq
      have hvi : ghv_vec n idx x i = 0 := by simp [ghv_vec, hxi]
      simp [apply_reflector, hxi, hvi]
    · rw [if_neg h1, if_neg h2]
      have hSne : ghv_sigma2 n idx x ≠ 0 := by
        intro h0
        rcases le_or_lt 0 (x idx) with hx | hx
        · exact h1 ⟨h0, hx⟩
        · exact h2 ⟨h0, hx⟩
      have hSpos : 0 < ∑ j ∈ Finset.Ico (idx + 1) n, x j ^ 2 :=
        lt_of_le_of_ne hS0 fun h => hSne (by rw [sigma2_eq, ← h])
      have hW : x idx - ghv_xnorm n idx x < 0 := ghv_xnorm_neg n idx x hSpos
      have hWne : x idx - ghv_xnorm n idx x ≠ 0 := ne_of_lt hW
      have hbeta : ghv_beta n idx x =
          2 * (x idx - ghv_xnorm n idx x) ^ 2 /
            ((∑ j ∈ Finset.Ico (idx + 1) n, x j ^ 2) + (x idx - ghv_xnorm n idx x) ^ 2) := by
        unfold ghv_beta
        rw [ghv_vec1_piv n idx x hSpos, sigma2_eq]
      simp only [apply_reflector]
      rw [ghv_dot n idx x hSpos (lt_trans hii hin), hbeta,
        ghv_vec3_apply n idx x hSpos i (ne_of_gt hii)]
      have hvi : ghv_vec n idx x i = x i := by
        simp only [ghv_vec]
        rw [if_pos ⟨le_of_lt hii, hin⟩]
      rw [hvi, ghv_key (x idx) (∑ j ∈ Finset.Ico (idx + 1) n, x j ^ 2)
        (ghv_xnorm n idx x) hSpos (ghv_xnorm_sq n idx x) (Real.sqrt_nonneg _)]
      field_simp

/-- Witness for `get_householder_vec_zeroes_below_pivot` at `x = (3, 4)`,
pivot 0, entry 1. -/
theorem get_householder_vec_zeroes_below_pivot_witness :
    (0 : ℕ) < 1 ∧ (1 : ℕ) < 2 ∧
      apply_reflector 2 (get_householder_vec 2 0 fun j => if j = 0 then 3 else 4).1
        (get_householder_vec 2 0 fun j => if j = 0 then 3 else 4).2
        (fun j => if j = 0 then 3 else 4) 1 = 0 :=
  ⟨by norm_num, by norm_num,
    get_householder_vec_zeroes_below_pivot 2 0 1 _ (by norm_num) (by norm_num)⟩

/-! ### C8 — Tridiagonal apply -/

/-- C8 counterexample: with 1-D diagonals (`len(beta) = n`, as the claim
reads them) and the single-column input `X` of shape `(2, 1)`,
`Tridiagonal._matmat` broadcasts `beta` against the *column* axis and
returns an array of shape `(2, 2)` — not the claimed per-column stencil of
shape `(2, 1)`. -/
theorem Tridiagonal_matmat_1d_diag_cex :
    Option.map NpArr.shape
        (Tridiagonal_matmat (vecArr 1 fun _ => 1) (vecArr 2 fun t => if t = 0 then 1 else 2)
          (vecArr 1 fun _ => 1) ⟨[2, 1], fun _ => 1⟩) = some [2, 2] ∧
      ([2, 2] : List ℕ) ≠ [2, 1] :=
  ⟨rfl, by decide⟩

theorem bdim_self (d : ℕ) : bdim d d = some d := by
  simp [bdim]

theorem bdim_one_left (d : ℕ) : bdim 1 d = some d := by
  unfold bdim
  split_ifs with h1 h2 h3
  · rw [h1]
  · rfl
  · exact absurd rfl h2
  · exact absurd rfl h2

/-- Broadcasting a column against a matrix with the same row count. -/
theorem bcast_col (p q : ℕ) : bcastShape [p, 1] [p, q] = some [p, q] := by
  simp [bcastShape, bshapeRev, bdim_one_left, bdim_self]

/-- Broadcasting two equal 2-D shapes. -/
theorem bcast_same2 (p q : ℕ) : bcastShape [p, q] [p, q] = some [p, q] := by
  simp [bcastShape, bshapeRev, bdim_self]

/-- Size-1 axis clamping is the identity on in-range indices. -/
theorem clamp_eq (d i : ℕ) (h : i < d) : (if d = 1 then 0 else i) = i := by
  split_ifs with h1
  · omega
  · rfl

theorem opIndex_two (p q i j : ℕ) :
    opIndex [p, q] [i, j] = [if p = 1 then 0 else i, if q = 1 then 0 else j] := rfl

theorem idxIn_map_add_one_zero (l : List ℕ) : idxIn (l.map (· + 1)) 0 = none := by
  induction l with
  | nil => rfl
  | cons a t ih => simp [idxIn, ih]

theorem idxIn_map_add_one_succ (l : List ℕ) (s : ℕ) :
    idxIn (l.map (· + 1)) (s + 1) = idxIn l s := by
  induction l with
  | nil => rfl
  | cons a t ih => simp only [List.map_cons, idxIn, ih, add_left_inj]

theorem idxIn_range (m r : ℕ) : idxIn (List.range m) r = if r < m then some r else none := by
  induction m generalizing r with
  | zero => simp [idxIn]
  | succ m ih =>
    rw [List.range_succ_eq_map,
      show (List.range m).map Nat.succ = (List.range m).map (· + 1) from rfl]
    cases r with
    | zero => simp [idxIn]
    | succ s =>
      simp only [idxIn, idxIn_map_add_one_succ, ih,
        if_neg (show (0 : ℕ) ≠ s + 1 by omega)]
      split_ifs <;> simp <;> omega

/-- Position of row `r` in the fancy index `[1, …, m]` used for the
subdiagonal update. -/
theorem idxIn_shift (m r : ℕ) :
    idxIn ((List.range m).map (· + 1)) r =
      if 1 ≤ r ∧ r < m + 1 then some (r - 1) else none := by
  cases r with
  | zero => rw [idxIn_map_add_one_zero]; simp
  | succ s =>
    rw [idxIn_map_add_one_succ, idxIn_range]
    split_ifs <;> first | rfl | omega

/-- C8 (amended): when the three diagonals are stored as column vectors
(shape `(n-1,1)/(n,1)/(n-1,1)`, still of length `n` in the `len` sense the
constructor uses), `Tridiagonal._matmat` succeeds on every input `X` of
shape `(n, k)` — a batch of `k` column vectors — with result shape `(n, k)`
and entry `(i, j)` equal to the banded stencil
`beta[i]·X[i,j] + alpha[i-1]·X[i-1,j] + gamma[i]·X[i+1,j]` (boundary terms
omitted). -/
theorem Tridiagonal_matmat_stencil (n k : ℕ) (a b g : ℕ → ℚ) (X : ℕ → ℕ → ℚ)
    (i j : ℕ) (hi : i < n) (hj : j < k) :
    Option.map NpArr.shape
        (Tridiagonal_matmat (colVec (n - 1) a) (colVec n b) (colVec (n - 1) g)
          (matArr n k X)) = some [n, k] ∧
    Option.map (fun Y => Y.data [i, j])
        (Tridiagonal_matmat (colVec (n - 1) a) (colVec n b) (colVec (n - 1) g)
          (matArr n k X)) =
      some (b i * X i j + (if 1 ≤ i then a (i - 1) * X (i - 1) j else 0) +
        (if i + 1 < n then g i * X (i + 1) j else 0)) := by
  constructor
  · simp only [Tridiagonal_matmat, bmul, badd, ebin, colVec, matArr, zerosLike,
      dropLastRow, dropFirstRow, update_rows, bcast_col, bcast_same2,
      List.length_map, List.length_range, List.headD_cons, List.tail_cons,
      Option.map_some', Option.bind_eq_bind, Option.some_bind, Option.pure_def,
      if_true]
  · simp only [Tridiagonal_matmat, bmul, badd, ebin, colVec, matArr, zerosLike,
      dropLastRow, dropFirstRow, update_rows, bcast_col, bcast_same2,
      List.length_map, List.length_range, List.headD_cons, List.tail_cons,
      Option.map_some', Option.bind_eq_bind, Option.some_bind, Option.pure_def,
      if_true]
    have hnk1 : opIndex [n, k] [i, j] = [i, j] := by
      rw [opIndex_two, clamp_eq n i hi, clamp_eq k j hj]
    simp only [hnk1, opIndex_two, clamp_eq n i hi, clamp_eq k j hj, List.headD_cons,
      List.tail_cons, idxIn_shift, idxIn_range]
    by_cases h1 : 1 ≤ i
    · by_cases h2 : i + 1 < n
      · rw [if_pos (show 1 ≤ i ∧ i < n - 1 + 1 by omega), if_pos (show i < n - 1 by omega),
          if_pos h1, if_pos h2]
        simp only [opIndex_two, clamp_eq (n - 1) (i - 1) (by omega),
          clamp_eq (n - 1) i (by omega), clamp_eq k j hj, List.headD_cons, List.tail_cons]
      · rw [if_pos (show 1 ≤ i ∧ i < n - 1 + 1 by omega), if_neg (show ¬i < n - 1 by omega),
          if_pos h1, if_neg h2]
        simp only [opIndex_two, clamp_eq (n - 1) (i - 1) (by omega), clamp_eq k j hj,
          List.headD_cons, List.tail_cons]
    · by_cases h2 : i + 1 < n
      · rw [if_neg (show ¬(1 ≤ i ∧ i < n - 1 + 1) by omega), if_pos (show i < n - 1 by omega),
          if_neg h1, if_pos h2]
        simp only [opIndex_two, clamp_eq (n - 1) i (by omega), clamp_eq k j hj,
          List.headD_cons, List.tail_cons]
      · rw [if_neg (show ¬(1 ≤ i ∧ i < n - 1 + 1) by omega),
          if_neg (show ¬i < n - 1 by omega), if_neg h1, if_neg h2]

/-- Witness for `Tridiagonal_matmat_stencil` at `n = 3`, `k = 2`, entry
`(0, 1)`. -/
theorem Tridiagonal_matmat_stencil_witness :
    (0 : ℕ) < 3 ∧ (1 : ℕ) < 2 ∧
      (Option.map NpArr.shape
          (Tridiagonal_matmat (colVec (3 - 1) fun _ => 1) (colVec 3 fun _ => 2)
            (colVec (3 - 1) fun _ => 3) (matArr 3 2 fun _ _ => (1 : ℚ))) = some [3, 2] ∧
        Option.map (fun Y => Y.data [0, 1])
            (Tridiagonal_matmat (colVec (3 - 1) fun _ => 1) (colVec 3 fun _ => 2)
              (colVec (3 - 1) fun _ => 3) (matArr 3 2 fun _ _ => (1 : ℚ))) =
          some ((2 : ℚ) * 1 + (if (1 : ℕ) ≤ 0 then 1 * 1 else 0) +
            (if 0 + 1 < 3 then 3 * 1 else 0))) :=
  ⟨by norm_num, by norm_num,
    Tridiagonal_matmat_stencil 3 2 (fun _ => 1) (fun _ => 2) (fun _ => 3) (fun _ _ => 1)
      0 1 (by norm_num) (by norm_num)⟩

/-! ### C1 — Kronecker apply against the dense Kronecker matrix -/

theorem mixed_div (a b r : ℕ) (hb : b < r) : (a * r + b) / r = a := by
  rw [mul_comm, Nat.mul_add_div (by omega)]
  simp [Nat.div_eq_of_lt hb]

theorem mixed_mod (a b r : ℕ) (hb : b < r) : (a * r + b) % r = b := by
  rw [mul_comm, Nat.mul_add_mod]
  exact Nat.mod_eq_of_lt hb

theorem pos_factors3 (a b c x : ℕ) (h : x < a * b * c) : 0 < a ∧ 0 < b ∧ 0 < c := by
  rcases Nat.eq_zero_or_pos a with rfl | ha
  · simp at h
  rcases Nat.eq_zero_or_pos b with rfl | hb
  · simp at h
  rcases Nat.eq_zero_or_pos c with rfl | hc
  · simp at h
  exact ⟨ha, hb, hc⟩

/-- Splitting a flat sum over `m * q` indices into a double sum (row-major). -/
theorem sum_range_mul (m q : ℕ) (f : ℕ → ℚ) :
    ∑ j ∈ Finset.range (m * q), f j =
      ∑ a ∈ Finset.range m, ∑ b ∈ Finset.range q, f (a * q + b) := by
  induction m with
  | zero => simp
  | succ m ih =>
    rw [Finset.sum_range_succ, ← ih, Nat.succ_mul, Finset.range_eq_Ico,
      ← Finset.sum_Ico_consecutive _ (Nat.zero_le (m * q)) (Nat.le_add_right (m * q) q),
      ← Finset.range_eq_Ico]
    congr 1
    rw [Finset.sum_Ico_eq_sum_range]
    simp

theorem rowsProd_cons (M : Mat) (rest : List Mat) :
    rowsProd (M :: rest) = M.r * rowsProd rest := by
  simp [rowsProd]

theorem colsProd_cons (M : Mat) (rest : List Mat) :
    colsProd (M :: rest) = M.c * colsProd rest := by
  simp [colsProd]

theorem kronFoldr_r (Ms : List Mat) : (kronFoldr Ms).r = rowsProd Ms := by
  induction Ms with
  | nil => simp [kronFoldr, idMat, rowsProd]
  | cons M rest ih => simp [kronFoldr, kron, rowsProd_cons, ih]

theorem kronFoldr_c (Ms : List Mat) : (kronFoldr Ms).c = colsProd Ms := by
  induction Ms with
  | nil => simp [kronFoldr, idMat, colsProd]
  | cons M rest ih => simp [kronFoldr, kron, colsProd_cons, ih]

/-- `np.kron` is associative (entries included, as total functions). -/
theorem kron_assoc (A B C : Mat) : kron (kron A B) C = kron A (kron B C) := by
  unfold kron
  rw [Mat.mk.injEq]
  refine ⟨by ring, by ring, ?_⟩
  funext i j
  dsimp only
  rw [show B.r * C.r = C.r * B.r from mul_comm _ _,
    show B.c * C.c = C.c * B.c from mul_comm _ _,
    ← Nat.div_div_eq_div_mul, ← Nat.div_div_eq_div_mul,
    Nat.mod_mul_right_div_self, Nat.mod_mul_right_div_self,
    Nat.mod_mod_of_dvd i (dvd_mul_right C.r B.r),
    Nat.mod_mod_of_dvd j (dvd_mul_right C.c B.c)]
  ring

theorem kron_idMat (M : Mat) : kron M idMat = M := by
  obtain ⟨r, c, e⟩ := M
  unfold kron idMat
  dsimp only
  rw [Mat.mk.injEq]
  refine ⟨mul_one _, mul_one _, ?_⟩
  funext i j
  simp [Nat.div_one]

/-- The source's left-fold `reduce(kron, Ms)` equals the right fold. -/
theorem Kronecker_to_dense_eq_foldr (M : Mat) (rest : List Mat) :
    Kronecker_to_dense (M :: rest) = kronFoldr (M :: rest) := by
  show rest.foldl kron M = kron M (kronFoldr rest)
  induction rest generalizing M with
  | nil => exact (kron_idMat M).symm
  | cons N rest ih =>
    show (N :: rest).foldl kron M = _
    rw [List.foldl_cons, ih (kron M N), kron_assoc]
    rfl

/-- Net effect of one `Kronecker._matmat` loop iteration on a flat index in
block form `(A', j', idxb)`: a mode product with `M` on the middle axis. -/
theorem kronStep_apply (M : Mat) (pre cr batch : ℕ) (T : ℕ → ℚ)
    (A' j' idxb : ℕ) (hA : A' < pre * M.r) (hj : j' < cr) (hb : idxb < batch) :
    kronStep M pre (cr * batch) T (A' * (cr * batch) + j' * batch + idxb) =
      ∑ q ∈ Finset.range M.c,
        M.entry (A' % M.r) q *
          T (A' / M.r * (M.c * (cr * batch)) + q * (cr * batch) + (j' * batch + idxb)) := by
  have hr : 0 < M.r := by
    rcases Nat.eq_zero_or_pos M.r with h0 | h
    · rw [h0, mul_zero] at hA; omega
    · exact h
  have hD : j' * batch + idxb < cr * batch := by
    have h1 : j' * batch + idxb < (j' + 1) * batch := by rw [add_mul, one_mul]; omega
    have h2 : (j' + 1) * batch ≤ cr * batch := Nat.mul_le_mul_right _ (by omega)
    omega
  have hAr : A' / M.r < pre := by
    rw [Nat.div_lt_iff_lt_mul hr]
    exact hA
  have hE : A' / M.r * (cr * batch) + (j' * batch + idxb) < pre * (cr * batch) := by
    have h1 : A' / M.r * (cr * batch) + (j' * batch + idxb)
        < (A' / M.r + 1) * (cr * batch) := by rw [add_mul, one_mul]; omega
    have h2 : (A' / M.r + 1) * (cr * batch) ≤ pre * (cr * batch) :=
      Nat.mul_le_mul_right _ (by omega)
    omega
  have hw : A' * (cr * batch) + j' * batch + idxb
      = A' * (cr * batch) + (j' * batch + idxb) := by ring
  rw [hw]
  simp only [kronStep, moveFromFront, matFlat, moveToFront]
  rw [mixed_div _ _ _ hD, mixed_mod _ _ _ hD,
    show (A' * (cr * batch) + (j' * batch + idxb)) / (M.r * (cr * batch)) = A' / M.r from by
      rw [mul_comm M.r (cr * batch), ← Nat.div_div_eq_div_mul, mixed_div _ _ _ hD]]
  rw [show A' % M.r * (pre * (cr * batch)) + A' / M.r * (cr * batch) + (j' * batch + idxb)
      = A' % M.r * (pre * (cr * batch)) + (A' / M.r * (cr * batch) + (j' * batch + idxb))
      from by ring]
  rw [mixed_div _ _ _ hE, mixed_mod _ _ _ hE]
  have h_h : ∀ q : ℕ,
      (q * (pre * (cr * batch)) + (A' / M.r * (cr * batch) + (j' * batch + idxb)))
          % (pre * (cr * batch)) = A' / M.r * (cr * batch) + (j' * batch + idxb) :=
    fun q => mixed_mod _ _ _ hE
  have h_i : ∀ q : ℕ,
      (q * (pre * (cr * batch)) + (A' / M.r * (cr * batch) + (j' * batch + idxb)))
          / (pre * (cr * batch)) = q :=
    fun q => mixed_div _ _ _ hE
  have h_k : ∀ q : ℕ,
      (q * (pre * (cr * batch)) + (A' / M.r * (cr * batch) + (j' * batch + idxb)))
          % (cr * batch) = j' * batch + idxb := fun q => by
    rw [show q * (pre * (cr * batch)) + (A' / M.r * (cr * batch) + (j' * batch + idxb))
        = (q * pre + A' / M.r) * (cr * batch) + (j' * batch + idxb) from by ring,
      mixed_mod _ _ _ hD]
  have h_j : (A' / M.r * (cr * batch) + (j' * batch + idxb)) / (cr * batch) = A' / M.r :=
    mixed_div _ _ _ hD
  simp only [h_h, h_i, h_k, h_j]

/-- The `Kronecker._matmat` loop computes, blockwise over the leading `pre`
axis, multiplication by the iterated Kronecker matrix of the remaining
operands. -/
theorem Kronecker_matmat_loop_spec (Ms : List Mat) :
    ∀ (pre : ℕ) (T : ℕ → ℚ) (batch idx : ℕ),
      idx < pre * rowsProd Ms * batch →
      Kronecker_matmat_loop Ms pre batch T idx =
        ∑ j ∈ Finset.range (colsProd Ms),
          (kronFoldr Ms).entry (idx / batch % rowsProd Ms) j *
            T (idx / (rowsProd Ms * batch) * (colsProd Ms * batch) + j * batch + idx % batch) := by
  induction Ms with
  | nil =>
    intro pre T batch idx h
    show T idx = _
    simp only [show rowsProd ([] : List Mat) = 1 from rfl,
      show colsProd ([] : List Mat) = 1 from rfl, show kronFoldr [] = idMat from rfl]
    rw [Finset.sum_range_one]
    simp only [idMat, one_mul, mul_one, zero_mul, add_zero]
    rw [Nat.div_add_mod']
  | cons M rest ih =>
    intro pre T batch idx h
    have h' : idx < pre * M.r * rowsProd rest * batch := by
      rw [rowsProd_cons] at h
      exact lt_of_lt_of_eq h (by ring)
    obtain ⟨hpreM, hrest, hb⟩ := pos_factors3 _ _ _ _ h'
    have hA' : idx / (rowsProd rest * batch) < pre * M.r := by
      rw [Nat.div_lt_iff_lt_mul (Nat.mul_pos hrest hb)]
      exact lt_of_lt_of_eq h' (by ring)
    show Kronecker_matmat_loop rest (pre * M.r) batch
        (kronStep M pre (colsProd rest * batch) T) idx = _
    rw [ih (pre * M.r) _ batch idx h']
    have hstep : ∀ j' ∈ Finset.range (colsProd rest),
        (kronFoldr rest).entry (idx / batch % rowsProd rest) j' *
          kronStep M pre (colsProd rest * batch) T
            (idx / (rowsProd rest * batch) * (colsProd rest * batch) + j' * batch
              + idx % batch)
        = ∑ q ∈ Finset.range M.c,
            (kronFoldr rest).entry (idx / batch % rowsProd rest) j' *
              (M.entry (idx / (rowsProd rest * batch) % M.r) q *
                T (idx / (rowsProd rest * batch) / M.r * (M.c * (colsProd rest * batch)) +
                   q * (colsProd rest * batch) + (j' * batch + idx % batch))) := by
      intro j' hj'
      rw [kronStep_apply M pre (colsProd rest) batch T _ j' _ hA'
        (Finset.mem_range.mp hj') (Nat.mod_lt _ hb), Finset.mul_sum]
    rw [Finset.sum_congr rfl hstep, Finset.sum_comm]
    simp only [colsProd_cons, rowsProd_cons, kronFoldr]
    rw [sum_range_mul]
    have hI1 : idx / batch % (M.r * rowsProd rest) / rowsProd rest
        = idx / (rowsProd rest * batch) % M.r := by
      rw [mul_comm M.r (rowsProd rest), Nat.mod_mul_right_div_self, Nat.div_div_eq_div_mul,
        mul_comm batch (rowsProd rest)]
    have hI2 : idx / batch % (M.r * rowsProd rest) % rowsProd rest
        = idx / batch % rowsProd rest :=
      Nat.mod_mod_of_dvd _ (dvd_mul_left (rowsProd rest) M.r)
    have hI3 : idx / (M.r * rowsProd rest * batch) = idx / (rowsProd rest * batch) / M.r := by
      rw [show M.r * rowsProd rest * batch = rowsProd rest * batch * M.r from by ring,
        ← Nat.div_div_eq_div_mul]
    refine Finset.sum_congr rfl fun q hq => Finset.sum_congr rfl fun j' hj' => ?_
    have hj'' := Finset.mem_range.mp hj'
    simp only [kron, kronFoldr_r, kronFoldr_c]
    rw [mixed_div _ _ _ hj'', mixed_mod _ _ _ hj'', hI1, hI2]
    have hT : idx / (M.r * rowsProd rest * batch) * (M.c * colsProd rest * batch)
        + (q * colsProd rest + j') * batch + idx % batch
        = idx / (rowsProd rest * batch) / M.r * (M.c * (colsProd rest * batch))
          + q * (colsProd rest * batch) + (j' * batch + idx % batch) := by
      rw [hI3]; ring
    rw [hT]
    ring

/-- C1: `Kronecker._matmat` equals multiplication by the dense Kronecker
matrix `Kronecker.to_dense` (`reduce(kron, Ms)`), entrywise on the flat
result, and the operator's shape is the product of the operands' shapes. -/
theorem Kronecker_apply_eq_dense (Ms : List Mat) (hne : Ms ≠ []) (batch : ℕ) (v : ℕ → ℚ)
    (idx : ℕ) (hidx : idx < rowsProd Ms * batch) :
    Kronecker_matmat Ms batch v idx = matFlat (Kronecker_to_dense Ms) batch v idx ∧
    Kronecker_shape Ms = (rowsProd Ms, colsProd Ms) := by
  refine ⟨?_, rfl⟩
  obtain ⟨M, rest, rfl⟩ := List.exists_cons_of_ne_nil hne
  have h1 : idx < 1 * rowsProd (M :: rest) * batch := by rw [one_mul]; exact hidx
  obtain ⟨-, hrp, hb⟩ := pos_factors3 _ _ _ _ h1
  unfold Kronecker_matmat
  rw [Kronecker_matmat_loop_spec _ 1 v batch idx h1]
  have hz : idx / (rowsProd (M :: rest) * batch) = 0 := Nat.div_eq_of_lt hidx
  have hm : idx / batch % rowsProd (M :: rest) = idx / batch :=
    Nat.mod_eq_of_lt (by
      rw [Nat.div_lt_iff_lt_mul hb]
      exact hidx)
  rw [hz, hm, Kronecker_to_dense_eq_foldr]
  unfold matFlat
  rw [kronFoldr_c]
  simp only [zero_mul, zero_add]

/-- Witness for `Kronecker_apply_eq_dense` on two concrete 2×2 operands. -/
theorem Kronecker_apply_eq_dense_witness :
    ([⟨2, 2, fun _ _ => (1 : ℚ)⟩, ⟨2, 2, fun i j => (i : ℚ) + j⟩] : List Mat) ≠ [] ∧
    (0 : ℕ) < rowsProd ([⟨2, 2, fun _ _ => (1 : ℚ)⟩, ⟨2, 2, fun i j => (i : ℚ) + j⟩] :
      List Mat) * 1 ∧
    (Kronecker_matmat ([⟨2, 2, fun _ _ => (1 : ℚ)⟩, ⟨2, 2, fun i j => (i : ℚ) + j⟩] :
          List Mat) 1 (fun t => (t : ℚ)) 0
        = matFlat (Kronecker_to_dense ([⟨2, 2, fun _ _ => (1 : ℚ)⟩,
            ⟨2, 2, fun i j => (i : ℚ) + j⟩] : List Mat)) 1 (fun t => (t : ℚ)) 0 ∧
      Kronecker_shape ([⟨2, 2, fun _ _ => (1 : ℚ)⟩, ⟨2, 2, fun i j => (i : ℚ) + j⟩] :
          List Mat)
        = (rowsProd ([⟨2, 2, fun _ _ => (1 : ℚ)⟩, ⟨2, 2, fun i j => (i : ℚ) + j⟩] :
            List Mat),
           colsProd ([⟨2, 2, fun _ _ => (1 : ℚ)⟩, ⟨2, 2, fun i j => (i : ℚ) + j⟩] :
            List Mat))) :=
  ⟨List.cons_ne_nil _ _, by norm_num [rowsProd],
    Kronecker_apply_eq_dense _ (List.cons_ne_nil _ _) 1 _ 0 (by norm_num [rowsProd])⟩

/-! ### C3 — Givens/triangular GMRES strategy vs normal equations -/

/-- Givens pairs are unit vectors. -/
theorem givens_unit (a b : ℝ) :
    (get_givens_cos_sin a b).1 ^ 2 + (get_givens_cos_sin a b).2 ^ 2 = 1 := by
  unfold get_givens_cos_sin
  split_ifs with h
  · norm_num
  · have hb2 : 0 < b ^ 2 :=
      lt_of_le_of_ne (sq_nonneg b) fun h2 => h ((pow_eq_zero_iff two_ne_zero).mp h2.symm)
    have hd : 0 < a ^ 2 + b ^ 2 := by nlinarith [sq_nonneg a]
    have hd2 : Real.sqrt (a ^ 2 + b ^ 2) ^ 2 = a ^ 2 + b ^ 2 := Real.sq_sqrt hd.le
    have hdne : Real.sqrt (a ^ 2 + b ^ 2) ≠ 0 := ne_of_gt (Real.sqrt_pos.mpr hd)
    field_simp

/-- The Givens pair zeroes the targeted subdiagonal entry. -/
theorem givens_zero (a b : ℝ) :
    (get_givens_cos_sin a b).2 * a + (get_givens_cos_sin a b).1 * b = 0 := by
  unfold get_givens_cos_sin
  split_ifs with h
  · simp [h]
  · dsimp only
    ring

/-- A simultaneous 2-row rotation with `c² + s² = 1` preserves dot products
of length-`rows` vectors. -/
theorem rot_vec_dot (rows j : ℕ) (hj : j + 1 < rows) (c s : ℝ) (hcs : c ^ 2 + s ^ 2 = 1)
    (f g : ℕ → ℝ) :
    ∑ i ∈ Finset.range rows, rot_vec c s j f i * rot_vec c s j g i
      = ∑ i ∈ Finset.range rows, f i * g i := by
  have hjm : j ∈ Finset.range rows := Finset.mem_range.mpr (by omega)
  have hj1m : j + 1 ∈ (Finset.range rows).erase j :=
    Finset.mem_erase.mpr ⟨by omega, Finset.mem_range.mpr hj⟩
  rw [← Finset.add_sum_erase _ _ hjm, ← Finset.add_sum_erase _ _ hj1m,
    ← Finset.add_sum_erase _ (fun i => f i * g i) hjm,
    ← Finset.add_sum_erase _ (fun i => f i * g i) hj1m]
  have hS : ∑ i ∈ ((Finset.range rows).erase j).erase (j + 1),
      rot_vec c s j f i * rot_vec c s j g i
      = ∑ i ∈ ((Finset.range rows).erase j).erase (j + 1), f i * g i := by
    refine Finset.sum_congr rfl fun i hi => ?_
    have h1 : i ≠ j + 1 := (Finset.mem_erase.mp hi).1
    have h2 : i ≠ j := (Finset.mem_erase.mp (Finset.mem_erase.mp hi).2).1
    simp [rot_vec, h1, h2]
  rw [hS]
  have hne : j + 1 ≠ j := Nat.succ_ne_self j
  simp only [rot_vec, eq_self_iff_true, Nat.succ_ne_self, if_true, if_false,
    ite_true, ite_false, if_neg hne, if_pos rfl]
  linear_combination (f j * g j + f (j + 1) * g (j + 1)) * hcs

/-- The source fold computes `(foldl qr_rstep H, accumulated Gs)`. -/
theorem qr_fold_split (L : List ℕ) : ∀ (H : ℕ → ℕ → ℝ) (gs0 : List (ℝ × ℝ)),
    L.foldl
        (fun st j =>
          let cs := get_givens_cos_sin (st.1 j j) (st.1 (j + 1) j)
          (rot_rows cs.1 cs.2 j st.1, st.2 ++ [cs]))
        (H, gs0)
      = (L.foldl qr_rstep H, gs0 ++ qr_gs L H) := by
  induction L with
  | nil => intro H gs0; simp [qr_gs]
  | cons j L ih =>
    intro H gs0
    rw [List.foldl_cons, List.foldl_cons, ih]
    simp [qr_rstep, qr_gs]

theorem get_hessenberg_triangular_qr_eq (rows : ℕ) (H : ℕ → ℕ → ℝ) :
    get_hessenberg_triangular_qr rows H
      = ((List.range (rows - 1)).foldl qr_rstep H, qr_gs (List.range (rows - 1)) H) := by
  unfold get_hessenberg_triangular_qr
  rw [qr_fold_split]
  simp

theorem qr_gs_length (L : List ℕ) : ∀ H, (qr_gs L H).length = L.length := by
  induction L with
  | nil => intro H; rfl
  | cons j L ih => intro H; simp [qr_gs, ih]

/-- Replaying the accumulated rotations with `apply_givens_fwd` equals the
paired fold `qr_vec`, because step `j`'s rotation sits at position `j` of
`Gs`. -/
theorem apply_givens_fwd_qr_gs (m : ℕ) : ∀ (k : ℕ) (H : ℕ → ℕ → ℝ) (v : ℕ → ℝ),
    ((qr_gs (List.range' k m) H).enumFrom k).foldl
        (fun w p => rot_vec p.2.1 p.2.2 p.1 w) v
      = qr_vec (List.range' k m) H v := by
  induction m with
  | zero => intro k H v; rfl
  | succ m ih =>
    intro k H v
    rw [List.range'_succ]
    simp only [qr_gs, qr_vec, List.enumFrom_cons, List.foldl_cons]
    exact ih (k + 1) (qr_rstep H k) _

theorem apply_givens_fwd_eq_qr_vec (m : ℕ) (H : ℕ → ℕ → ℝ) (v : ℕ → ℝ) :
    apply_givens_fwd (qr_gs (List.range m) H) v = qr_vec (List.range m) H v := by
  unfold apply_givens_fwd
  rw [List.range_eq_range']
  exact apply_givens_fwd_qr_gs m 0 H v

theorem qr_vec_concat (L : List ℕ) (a : ℕ) : ∀ (H : ℕ → ℕ → ℝ) (v : ℕ → ℝ),
    qr_vec (L ++ [a]) H v
      = rot_vec (get_givens_cos_sin ((L.foldl qr_rstep H) a a)
            ((L.foldl qr_rstep H) (a + 1) a)).1
          (get_givens_cos_sin ((L.foldl qr_rstep H) a a)
            ((L.foldl qr_rstep H) (a + 1) a)).2 a
          (qr_vec L H v) := by
  induction L with
  | nil => intro H v; rfl
  | cons j L ih =>
    intro H v
    simp only [List.cons_append, qr_vec, List.foldl_cons]
    exact ih (qr_rstep H j) _

/-- Invariants of the Givens triangularization fold: the Gram matrix
`RᵀR` and the rotated right-hand side products `Rᵀw` are preserved, columns
left of the current step are triangular, and sub-subdiagonal zeros persist. -/
theorem qr_invariants (m : ℕ) (H : ℕ → ℕ → ℝ) (e1 : ℕ → ℝ)
    (hhess : ∀ i l, i ≤ m → l + 1 < i → H i l = 0) :
    ∀ t, t ≤ m →
      (∀ a b, ∑ i ∈ Finset.range (m + 1),
          ((List.range t).foldl qr_rstep H) i a * ((List.range t).foldl qr_rstep H) i b
        = ∑ i ∈ Finset.range (m + 1), H i a * H i b) ∧
      (∀ a, ∑ i ∈ Finset.range (m + 1),
          ((List.range t).foldl qr_rstep H) i a * qr_vec (List.range t) H e1 i
        = ∑ i ∈ Finset.range (m + 1), H i a * e1 i) ∧
      (∀ i l, i ≤ m → l < t → l < i → ((List.range t).foldl qr_rstep H) i l = 0) ∧
      (∀ i l, i ≤ m → l + 1 < i → ((List.range t).foldl qr_rstep H) i l = 0) := by
  intro t
  induction t with
  | zero =>
    intro _
    exact ⟨fun a b => rfl, fun a => rfl,
      fun i l _ h _ => absurd h (Nat.not_lt_zero l), hhess⟩
  | succ t ih =>
    intro ht
    obtain ⟨I1, I2, B1, B2⟩ := ih (by omega)
    rw [List.range_succ]
    simp only [List.foldl_append, List.foldl_cons, List.foldl_nil]
    rw [qr_vec_concat]
    set R := (List.range t).foldl qr_rstep H with hRdef
    set w := qr_vec (List.range t) H e1 with hwdef
    set c := (get_givens_cos_sin (R t t) (R (t + 1) t)).1 with hcdef
    set s := (get_givens_cos_sin (R t t) (R (t + 1) t)).2 with hsdef
    have hcs : c ^ 2 + s ^ 2 = 1 := givens_unit _ _
    have hz : s * R t t + c * R (t + 1) t = 0 := givens_zero _ _
    have hstep : ∀ l i, qr_rstep R t i l = rot_vec c s t (fun i' => R i' l) i := fun l i => rfl
    have hB1 : ∀ i l, i ≤ m → l < t + 1 → l < i → qr_rstep R t i l = 0 := by
      intro i l him hlt hli
      by_cases hit : i = t
      · subst hit
        have ha : R i l = 0 := B1 i l him (by omega) hli
        have hb : R (i + 1) l = 0 := B1 (i + 1) l (by omega) (by omega) (by omega)
        simp [qr_rstep, rot_rows, ha, hb]
      · by_cases hit1 : i = t + 1
        · subst hit1
          rcases Nat.lt_or_ge l t with hlt' | hge
          · have ha : R t l = 0 := B1 t l (by omega) hlt' hlt'
            have hb : R (t + 1) l = 0 := B1 (t + 1) l him (by omega) (by omega)
            simp [qr_rstep, rot_rows, ha, hb, Nat.succ_ne_self]
          · have hl : l = t := by omega
            subst hl
            have hne : l + 1 ≠ l := Nat.succ_ne_self l
            simp only [qr_rstep, rot_rows, if_neg hne, if_pos rfl]
            exact hz
        · have huntouched : qr_rstep R t i l = R i l := by
            simp [qr_rstep, rot_rows, hit, hit1]
          rw [huntouched]
          rcases Nat.lt_or_ge l t with hlt' | hge
          · exact B1 i l him hlt' hli
          · have hl : l = t := by omega
            subst hl
            exact B2 i l him (by omega)
    have hB2 : ∀ i l, i ≤ m → l + 1 < i → qr_rstep R t i l = 0 := by
      intro i l him hli
      by_cases hit : i = t
      · subst hit
        have ha : R i l = 0 := B2 i l him hli
        have hb : R (i + 1) l = 0 := B2 (i + 1) l (by omega) (by omega)
        simp [qr_rstep, rot_rows, ha, hb]
      · by_cases hit1 : i = t + 1
        · subst hit1
          have hb : R (t + 1) l = 0 := B2 (t + 1) l him hli
          have ha : R t l = 0 := by
            rcases Nat.lt_or_ge (l + 1) t with h | h
            · exact B2 t l (by omega) h
            · exact B1 t l (by omega) (by omega) (by omega)
          simp [qr_rstep, rot_rows, ha, hb, Nat.succ_ne_self]
        · have huntouched : qr_rstep R t i l = R i l := by
            simp [qr_rstep, rot_rows, hit, hit1]
          rw [huntouched]
          exact B2 i l him hli
    refine ⟨?_, ?_, hB1, hB2⟩
    · intro a b
      have h1 : ∑ i ∈ Finset.range (m + 1), qr_rstep R t i a * qr_rstep R t i b
          = ∑ i ∈ Finset.range (m + 1), R i a * R i b :=
        rot_vec_dot (m + 1) t (by omega) c s hcs (fun i => R i a) (fun i => R i b)
      rw [h1]
      exact I1 a b
    · intro a
      have h1 : ∑ i ∈ Finset.range (m + 1), qr_rstep R t i a * rot_vec c s t w i
          = ∑ i ∈ Finset.range (m + 1), R i a * w i :=
        rot_vec_dot (m + 1) t (by omega) c s hcs (fun i => R i a) w
      rw [h1]
      exact I2 a

/-- C3: for a Hessenberg `H` ((m+1)×m) with injective normal matrix `HᵀH`,
the triangular/Givens strategy of `gmres` — one recorded rotation per
subdiagonal entry, upper-triangular `R`, replay on `e1`, triangular solve on
the first `m` rows — yields the same coefficient vector as the
normal-equations strategy `solve(HᵀH, Hᵀe1)`, hence the same `x0 + Q @ y`.
The backend solves are modelled from the spec by their defining equations
(`hy`: normal equations; `hytri`: the triangular system `solvetri` solves). -/
theorem gmres_triangular_eq_normal (m : ℕ) (H : ℕ → ℕ → ℝ) (e1 : ℕ → ℝ)
    (hhess : ∀ i l, i ≤ m → l + 1 < i → H i l = 0)
    (hinj : ∀ z : ℕ → ℝ,
      (∀ a, a < m → ∑ b ∈ Finset.range m,
          (∑ i ∈ Finset.range (m + 1), H i a * H i b) * z b = 0) →
      ∀ b, b < m → z b = 0)
    (y ytri : ℕ → ℝ)
    (hy : ∀ a, a < m → ∑ b ∈ Finset.range m,
        (∑ i ∈ Finset.range (m + 1), H i a * H i b) * y b
      = ∑ i ∈ Finset.range (m + 1), H i a * e1 i)
    (hytri : ∀ a, a < m → ∑ b ∈ Finset.range m,
        (get_hessenberg_triangular_qr (m + 1) H).1 a b * ytri b
      = apply_givens_fwd (get_hessenberg_triangular_qr (m + 1) H).2 e1 a) :
    (get_hessenberg_triangular_qr (m + 1) H).2.length = m ∧
    (∀ i l, i ≤ m → l < m → l < i → (get_hessenberg_triangular_qr (m + 1) H).1 i l = 0) ∧
    (∀ b, b < m → ytri b = y b) ∧
    ∀ (x0 : ℕ → ℝ) (Q : ℕ → ℕ → ℝ) (i : ℕ),
      gmres_soln m x0 Q ytri i = gmres_soln m x0 Q y i := by
  have hqr := get_hessenberg_triangular_qr_eq (m + 1) H
  rw [Nat.add_sub_cancel] at hqr
  rw [hqr] at hytri ⊢
  dsimp only at hytri ⊢
  rw [apply_givens_fwd_eq_qr_vec] at hytri
  obtain ⟨I1, I2, B1, B2⟩ := qr_invariants m H e1 hhess m le_rfl
  have hcore : ∀ b, b < m → ytri b = y b := by
    have hchain : ∀ a, a < m →
        ∑ b ∈ Finset.range m,
            (∑ i ∈ Finset.range (m + 1), H i a * H i b) * ytri b
          = ∑ i ∈ Finset.range (m + 1), H i a * e1 i := by
      intro a ha
      calc ∑ b ∈ Finset.range m, (∑ i ∈ Finset.range (m + 1), H i a * H i b) * ytri b
          = ∑ b ∈ Finset.range m,
              (∑ i ∈ Finset.range (m + 1),
                ((List.range m).foldl qr_rstep H) i a *
                  ((List.range m).foldl qr_rstep H) i b) * ytri b :=
            Finset.sum_congr rfl fun b _ => by rw [I1 a b]
        _ = ∑ b ∈ Finset.range m, ∑ i ∈ Finset.range (m + 1),
              ((List.range m).foldl qr_rstep H) i a *
                ((List.range m).foldl qr_rstep H) i b * ytri b :=
            Finset.sum_congr rfl fun b _ => by rw [Finset.sum_mul]
        _ = ∑ i ∈ Finset.range (m + 1), ∑ b ∈ Finset.range m,
              ((List.range m).foldl qr_rstep H) i a *
                ((List.range m).foldl qr_rstep H) i b * ytri b := Finset.sum_comm
        _ = ∑ i ∈ Finset.range (m + 1),
              ((List.range m).foldl qr_rstep H) i a *
                ∑ b ∈ Finset.range m,
                  ((List.range m).foldl qr_rstep H) i b * ytri b := by
            refine Finset.sum_congr rfl fun i _ => ?_
            rw [Finset.mul_sum]
            exact Finset.sum_congr rfl fun b _ => mul_assoc _ _ _
        _ = ∑ i ∈ Finset.range (m + 1),
              ((List.range m).foldl qr_rstep H) i a * qr_vec (List.range m) H e1 i := by
            refine Finset.sum_congr rfl fun i hi => ?_
            have him := Finset.mem_range.mp hi
            rcases Nat.lt_or_ge i m with hlt | hge
            · rw [hytri i hlt]
            · have him' : i = m := by omega
              subst him'
              rw [B1 i a le_rfl ha ha, zero_mul, zero_mul]
        _ = ∑ i ∈ Finset.range (m + 1), H i a * e1 i := I2 a
    have hdiff : ∀ a, a < m →
        ∑ b ∈ Finset.range m,
          (∑ i ∈ Finset.range (m + 1), H i a * H i b) * (ytri b - y b) = 0 := by
      intro a ha
      have h2 :
          ∑ b ∈ Finset.range m,
              (∑ i ∈ Finset.range (m + 1), H i a * H i b) * (ytri b - y b)
            = (∑ b ∈ Finset.range m,
                (∑ i ∈ Finset.range (m + 1), H i a * H i b) * ytri b)
              - ∑ b ∈ Finset.range m,
                (∑ i ∈ Finset.range (m + 1), H i a * H i b) * y b := by
        rw [← Finset.sum_sub_distrib]
        exact Finset.sum_congr rfl fun b _ => by ring
      rw [h2, hchain a ha, hy a ha, sub_self]
    intro b hb
    exact sub_eq_zero.mp (hinj (fun b => ytri b - y b) hdiff b hb)
  refine ⟨?_, ?_, hcore, ?_⟩
  · rw [qr_gs_length, List.length_range]
  · intro i l him hlm hli
    exact B1 i l him hlm hli
  · intro x0 Q i
    unfold gmres_soln
    congr 1
    exact Finset.sum_congr rfl fun b hb => by rw [hcore b (Finset.mem_range.mp hb)]

/-- Witness for `gmres_triangular_eq_normal` at `m = 1`,
`H = [[1],[0]]`, `e1 = (1,0)ᵀ`, `y = ytri = (1)`. -/
theorem gmres_triangular_eq_normal_witness :
    (∀ i l, i ≤ 1 → l + 1 < i →
      (fun i' l' => if i' = 0 ∧ l' = 0 then (1 : ℝ) else 0) i l = 0) ∧
    (∀ z : ℕ → ℝ,
      (∀ a, a < 1 → ∑ b ∈ Finset.range 1,
          (∑ i ∈ Finset.range 2,
            (fun i' l' => if i' = 0 ∧ l' = 0 then (1 : ℝ) else 0) i a *
              (fun i' l' => if i' = 0 ∧ l' = 0 then (1 : ℝ) else 0) i b) * z b = 0) →
      ∀ b, b < 1 → z b = 0) ∧
    (∀ a, a < 1 → ∑ b ∈ Finset.range 1,
        (∑ i ∈ Finset.range 2,
          (fun i' l' => if i' = 0 ∧ l' = 0 then (1 : ℝ) else 0) i a *
            (fun i' l' => if i' = 0 ∧ l' = 0 then (1 : ℝ) else 0) i b) *
          (fun _ : ℕ => (1 : ℝ)) b
      = ∑ i ∈ Finset.range 2,
          (fun i' l' => if i' = 0 ∧ l' = 0 then (1 : ℝ) else 0) i a *
            (fun i' : ℕ => if i' = 0 then (1 : ℝ) else 0) i) ∧
    (∀ a, a < 1 → ∑ b ∈ Finset.range 1,
        (get_hessenberg_triangular_qr 2
            (fun i' l' => if i' = 0 ∧ l' = 0 then (1 : ℝ) else 0)).1 a b *
          (fun _ : ℕ => (1 : ℝ)) b
      = apply_givens_fwd
          (get_hessenberg_triangular_qr 2
            (fun i' l' => if i' = 0 ∧ l' = 0 then (1 : ℝ) else 0)).2
          (fun i' : ℕ => if i' = 0 then (1 : ℝ) else 0) a) ∧
    ((get_hessenberg_triangular_qr 2
        (fun i' l' => if i' = 0 ∧ l' = 0 then (1 : ℝ) else 0)).2.length = 1 ∧
      (∀ i l, i ≤ 1 → l < 1 → l < i →
        (get_hessenberg_triangular_qr 2
          (fun i' l' => if i' = 0 ∧ l' = 0 then (1 : ℝ) else 0)).1 i l = 0) ∧
      (∀ b, b < 1 → (fun _ : ℕ => (1 : ℝ)) b = (fun _ : ℕ => (1 : ℝ)) b) ∧
      ∀ (x0 : ℕ → ℝ) (Q : ℕ → ℕ → ℝ) (i : ℕ),
        gmres_soln 1 x0 Q (fun _ : ℕ => (1 : ℝ)) i
          = gmres_soln 1 x0 Q (fun _ : ℕ => (1 : ℝ)) i) := by
  have hhess : ∀ i l, i ≤ 1 → l + 1 < i →
      (fun i' l' => if i' = 0 ∧ l' = 0 then (1 : ℝ) else 0) i l = 0 := by
    intro i l h1 h2
    omega
  have hinj : ∀ z : ℕ → ℝ,
      (∀ a, a < 1 → ∑ b ∈ Finset.range 1,
          (∑ i ∈ Finset.range 2,
            (fun i' l' => if i' = 0 ∧ l' = 0 then (1 : ℝ) else 0) i a *
              (fun i' l' => if i' = 0 ∧ l' = 0 then (1 : ℝ) else 0) i b) * z b = 0) →
      ∀ b, b < 1 → z b = 0 := by
    intro z hz b hb
    have h0 := hz 0 (by norm_num)
    have hb0 : b = 0 := by omega
    subst hb0
    norm_num [Finset.sum_range_succ] at h0
    exact h0
  have hy : ∀ a, a < 1 → ∑ b ∈ Finset.range 1,
      (∑ i ∈ Finset.range 2,
        (fun i' l' => if i' = 0 ∧ l' = 0 then (1 : ℝ) else 0) i a *
          (fun i' l' => if i' = 0 ∧ l' = 0 then (1 : ℝ) else 0) i b) *
        (fun _ : ℕ => (1 : ℝ)) b
      = ∑ i ∈ Finset.range 2,
        (fun i' l' => if i' = 0 ∧ l' = 0 then (1 : ℝ) else 0) i a *
          (fun i' : ℕ => if i' = 0 then (1 : ℝ) else 0) i := by
    intro a ha
    have ha0 : a = 0 := by omega
    subst ha0
    norm_num [Finset.sum_range_succ]
  have hytri : ∀ a, a < 1 → ∑ b ∈ Finset.range 1,
      (get_hessenberg_triangular_qr 2
          (fun i' l' => if i' = 0 ∧ l' = 0 then (1 : ℝ) else 0)).1 a b *
        (fun _ : ℕ => (1 : ℝ)) b
      = apply_givens_fwd
          (get_hessenberg_triangular_qr 2
            (fun i' l' => if i' = 0 ∧ l' = 0 then (1 : ℝ) else 0)).2
          (fun i' : ℕ => if i' = 0 then (1 : ℝ) else 0) a := by
    intro a ha
    have ha0 : a = 0 := by omega
    subst ha0
    norm_num [get_hessenberg_triangular_qr, apply_givens_fwd, get_givens_cos_sin,
      rot_rows, rot_vec, List.range_succ, Finset.sum_range_succ]
  exact ⟨hhess, hinj, hy, hytri,
    gmres_triangular_eq_normal 1 _ _ hhess hinj _ _ hy hytri⟩

/-! ### C10 — termination and the iteration cap of `run_cg_lanczos` -/

theorem cgStep_k (A : ℕ → ℕ → ℝ) (n : ℕ) (s : CgState) : (cgStep A n s).k = s.k + 1 := rfl

/-- The loop stabilizes: any two fuels at least `max_iters - 1 - s.k` give
the same state (the `while` condition forces `k < max_iters - 1` and `k`
increases by one each trip). -/
theorem cgLoop_stable (A : ℕ → ℕ → ℝ) (n : ℕ) (tol : ℝ) (m : ℕ) :
    ∀ (f₁ f₂ : ℕ) (s : CgState), m - 1 ≤ s.k + f₁ → m - 1 ≤ s.k + f₂ →
      cgLoop A n tol m f₁ s = cgLoop A n tol m f₂ s := by
  intro f₁
  induction f₁ with
  | zero =>
    intro f₂ s h1 h2
    have hcond : ¬(tol < s.alpha s.k ∧ s.k < m - 1) := by
      rintro ⟨-, hk⟩
      omega
    cases f₂ with
    | zero => rfl
    | succ f₂ =>
      show cgLoop A n tol m 0 s = cgLoop A n tol m (f₂ + 1) s
      simp only [cgLoop, if_neg hcond]
  | succ f₁ ih =>
    intro f₂ s h1 h2
    by_cases hcond : tol < s.alpha s.k ∧ s.k < m - 1
    · cases f₂ with
      | zero =>
        exfalso
        have := hcond.2
        omega
      | succ f₂ =>
        simp only [cgLoop, if_pos hcond]
        exact ih f₂ (cgStep A n s)
          (by rw [cgStep_k]; omega) (by rw [cgStep_k]; omega)
    · cases f₂ with
      | zero => simp only [cgLoop, if_neg hcond]
      | succ f₂ => simp only [cgLoop, if_neg hcond]

/-- The final iteration index never exceeds `max (initial k) (max_iters - 1)`. -/
theorem cgLoop_k_le (A : ℕ → ℕ → ℝ) (n : ℕ) (tol : ℝ) (m : ℕ) :
    ∀ (f : ℕ) (s : CgState), (cgLoop A n tol m f s).k ≤ max s.k (m - 1) := by
  intro f
  induction f with
  | zero => intro s; exact le_max_left _ _
  | succ f ih =>
    intro s
    by_cases hcond : tol < s.alpha s.k ∧ s.k < m - 1
    · simp only [cgLoop, if_pos hcond]
      refine le_trans (ih (cgStep A n s)) ?_
      rw [cgStep_k]
      have h1 : s.k + 1 ≤ m - 1 := hcond.2
      rw [max_eq_right h1]
      exact le_max_right _ _
    · simp only [cgLoop, if_neg hcond]
      exact le_max_left _ _

/-- C10: `run_cg_lanczos` terminates — any fuel of at least `max_iters`
trips reproduces the returned state — and the returned iteration index
satisfies `k ≤ max_iters - 1` whether or not the tolerance was reached; the
state (solution estimate and residual columns included) is always returned. -/
theorem run_cg_lanczos_terminates (A : ℕ → ℕ → ℝ) (n : ℕ) (rhs x0 : ℕ → ℝ)
    (max_iters : ℕ) (tol : ℝ) (hm : 1 ≤ max_iters) :
    (run_cg_lanczos A n rhs x0 max_iters tol).k ≤ max_iters - 1 ∧
    ∀ fuel, max_iters ≤ fuel →
      cgLoop A n tol max_iters fuel (initialize_cg_lanczos A n rhs x0)
        = run_cg_lanczos A n rhs x0 max_iters tol := by
  constructor
  · have h := cgLoop_k_le A n tol max_iters max_iters (initialize_cg_lanczos A n rhs x0)
    have h0 : (initialize_cg_lanczos A n rhs x0).k = 0 := rfl
    unfold run_cg_lanczos
    rw [h0] at h
    simpa using h
  · intro fuel hf
    unfold run_cg_lanczos
    exact cgLoop_stable A n tol max_iters fuel max_iters _
      (by rw [show (initialize_cg_lanczos A n rhs x0).k = 0 from rfl]; omega)
      (by rw [show (initialize_cg_lanczos A n rhs x0).k = 0 from rfl]; omega)

/-- Witness for `run_cg_lanczos_terminates` at a concrete 1×1 system. -/
theorem run_cg_lanczos_terminates_witness :
    (1 : ℕ) ≤ 3 ∧
    ((run_cg_lanczos (fun _ _ => 0) 1 (fun _ => 0) (fun _ => 0) 3 1).k ≤ 3 - 1 ∧
      ∀ fuel, 3 ≤ fuel →
        cgLoop (fun _ _ => 0) 1 1 3 fuel
            (initialize_cg_lanczos (fun _ _ => 0) 1 (fun _ => 0) (fun _ => 0))
          = run_cg_lanczos (fun _ _ => 0) 1 (fun _ => 0) (fun _ => 0) 3 1) :=
  ⟨by norm_num,
    run_cg_lanczos_terminates (fun _ _ => 0) 1 (fun _ => 0) (fun _ => 0) 3 1 (by norm_num)⟩

/-! ### C4 — Lanczos relation of `run_cg_lanczos` -/

theorem dotn_comm (n : ℕ) (f g : ℕ → ℝ) : dotn n f g = dotn n g f :=
  Finset.sum_congr rfl fun i _ => mul_comm _ _

theorem dotn_eq_zero_left (n : ℕ) (f g : ℕ → ℝ) (h : ∀ i, f i = 0) : dotn n f g = 0 :=
  Finset.sum_eq_zero fun i _ => by rw [h i, zero_mul]

theorem dotn_eq_zero_right (n : ℕ) (f g : ℕ → ℝ) (h : ∀ i, g i = 0) : dotn n f g = 0 :=
  Finset.sum_eq_zero fun i _ => by rw [h i, mul_zero]

theorem dotn_self_nonneg (n : ℕ) (f : ℕ → ℝ) : 0 ≤ dotn n f f :=
  Finset.sum_nonneg fun i _ => mul_self_nonneg _

theorem dotn_smul_right (n : ℕ) (f g : ℕ → ℝ) (c : ℝ) :
    dotn n f (fun i => c * g i) = c * dotn n f g := by
  rw [dotn, dotn, Finset.mul_sum]
  exact Finset.sum_congr rfl fun i _ => by ring

theorem dotn_div_left (n : ℕ) (f g : ℕ → ℝ) (c : ℝ) :
    dotn n (fun i => f i / c) g = dotn n f g / c := by
  rw [dotn, dotn, Finset.sum_div]
  exact Finset.sum_congr rfl fun i _ => by ring

theorem dotn_div_right (n : ℕ) (f g : ℕ → ℝ) (c : ℝ) :
    dotn n f (fun i => g i / c) = dotn n f g / c := by
  rw [dotn, dotn, Finset.sum_div]
  exact Finset.sum_congr rfl fun i _ => by ring

theorem dotn_sub3_left (n : ℕ) (F G H g : ℕ → ℝ) (b a : ℝ) :
    dotn n (fun i => F i - b * G i - a * H i) g
      = dotn n F g - b * dotn n G g - a * dotn n H g := by
  simp only [dotn, Finset.mul_sum, ← Finset.sum_sub_distrib]
  exact Finset.sum_congr rfl fun i _ => by ring

theorem dotn_add3_right (n : ℕ) (f P Q R : ℕ → ℝ) (b a : ℝ) :
    dotn n f (fun i => P i + b * Q i + a * R i)
      = dotn n f P + b * dotn n f Q + a * dotn n f R := by
  simp only [dotn, Finset.mul_sum, ← Finset.sum_add_distrib]
  exact Finset.sum_congr rfl fun i _ => by ring

/-- For symmetric `A`, `⟨A f, g⟩ = ⟨f, A g⟩`. -/
theorem dotn_matvec_symm (A : ℕ → ℕ → ℝ) (n : ℕ)
    (hsym : ∀ i, i < n → ∀ t, t < n → A i t = A t i) (f g : ℕ → ℝ) :
    dotn n (matvec A n f) g = dotn n f (matvec A n g) := by
  simp only [dotn, matvec]
  calc ∑ i ∈ Finset.range n, (∑ t ∈ Finset.range n, A i t * f t) * g i
      = ∑ i ∈ Finset.range n, ∑ t ∈ Finset.range n, A i t * f t * g i :=
        Finset.sum_congr rfl fun i _ => Finset.sum_mul _ _ _
    _ = ∑ t ∈ Finset.range n, ∑ i ∈ Finset.range n, A i t * f t * g i := Finset.sum_comm
    _ = ∑ t ∈ Finset.range n, f t * ∑ i ∈ Finset.range n, A t i * g i := by
        refine Finset.sum_congr rfl fun t ht => ?_
        rw [Finset.mul_sum]
        refine Finset.sum_congr rfl fun i hi => ?_
        rw [hsym i (Finset.mem_range.mp hi) t (Finset.mem_range.mp ht)]
        ring

theorem cgStep_q (A : ℕ → ℕ → ℝ) (n : ℕ) (s : CgState) :
    (cgStep A n s).q = Function.update s.q (s.k + 1) fun i => s.res s.k i / s.alpha s.k := rfl

theorem cgStep_beta (A : ℕ → ℕ → ℝ) (n : ℕ) (s : CgState) :
    (cgStep A n s).beta = Function.update s.beta (s.k + 1)
      (dotn n ((cgStep A n s).q (s.k + 1)) (matvec A n ((cgStep A n s).q (s.k + 1)))) := rfl

theorem cgStep_res (A : ℕ → ℕ → ℝ) (n : ℕ) (s : CgState) :
    (cgStep A n s).res = Function.update s.res (s.k + 1)
      (fun i => matvec A n ((cgStep A n s).q (s.k + 1)) i
        - (cgStep A n s).beta (s.k + 1) * (cgStep A n s).q (s.k + 1) i
        - s.alpha s.k * (cgStep A n s).q s.k i) := rfl

theorem cgStep_alpha (A : ℕ → ℕ → ℝ) (n : ℕ) (s : CgState) :
    (cgStep A n s).alpha = Function.update s.alpha (s.k + 1)
      (Real.sqrt (dotn n ((cgStep A n s).res (s.k + 1)) ((cgStep A n s).res (s.k + 1)))) := rfl

/-- One guarded loop iteration preserves the invariant `CgInv` (for `A`
symmetric on the working range and a nonnegative tolerance). -/
theorem cgInv_step (A : ℕ → ℕ → ℝ) (n : ℕ) (tol : ℝ) (htol : 0 ≤ tol)
    (hsym : ∀ i, i < n → ∀ t, t < n → A i t = A t i) (s : CgState)
    (hinv : CgInv A n tol s) (hcond : tol < s.alpha s.k) :
    CgInv A n tol (cgStep A n s) := by
  obtain ⟨hq0, hαn, hβ, hrr, hqfr, horth⟩ := hinv
  have hα_pos : 0 < s.alpha s.k := lt_of_le_of_lt htol hcond
  have hα_ne : s.alpha s.k ≠ 0 := ne_of_gt hα_pos
  have hqnew : ∀ i, (cgStep A n s).q (s.k + 1) i = s.res s.k i / s.alpha s.k := by
    intro i; rw [cgStep_q, Function.update_same]
  have hqfun : (cgStep A n s).q (s.k + 1) = fun i => s.res s.k i / s.alpha s.k :=
    funext hqnew
  have hqold : ∀ j, j ≤ s.k → (cgStep A n s).q j = s.q j := by
    intro j hj; rw [cgStep_q, Function.update_noteq (by omega)]
  have hαold : ∀ j, j ≤ s.k → (cgStep A n s).alpha j = s.alpha j := by
    intro j hj; rw [cgStep_alpha, Function.update_noteq (by omega)]
  have hβold : ∀ j, j ≤ s.k → (cgStep A n s).beta j = s.beta j := by
    intro j hj; rw [cgStep_beta, Function.update_noteq (by omega)]
  have hrold : ∀ j, j ≤ s.k → (cgStep A n s).res j = s.res j := by
    intro j hj; rw [cgStep_res, Function.update_noteq (by omega)]
  have hdot0 : ∀ a b, a ≤ s.k → b ≤ s.k → a ≠ b ∨ a = 0 ∨ b = 0 →
      dotn n (s.q a) (s.q b) = 0 := by
    intro a b ha hb h
    rcases Nat.eq_zero_or_pos a with rfl | hapos
    · exact dotn_eq_zero_left n _ _ hq0
    rcases Nat.eq_zero_or_pos b with rfl | hbpos
    · exact dotn_eq_zero_right n _ _ hq0
    have hne : a ≠ b := by rcases h with h | h | h; exacts [h, by omega, by omega]
    rw [horth a b hapos ha hbpos hb, if_neg hne]
  have hres_orth : ∀ a, 1 ≤ a → a ≤ s.k → dotn n (s.res s.k) (s.q a) = 0 := by
    intro a ha1 haK
    have hK1 : 1 ≤ s.k := le_trans ha1 haK
    rw [show s.res s.k = fun i =>
        matvec A n (s.q s.k) i - s.beta s.k * s.q s.k i
          - s.alpha (s.k - 1) * s.q (s.k - 1) i from funext (hrr s.k hK1 le_rfl)]
    rw [dotn_sub3_left]
    rcases eq_or_lt_of_le haK with rfl | haK'
    · have h1 : dotn n (matvec A n (s.q s.k)) (s.q s.k) = s.beta s.k := by
        rw [dotn_matvec_symm A n hsym]
        exact (hβ s.k hK1 le_rfl).symm
      have h2 : dotn n (s.q s.k) (s.q s.k) = 1 := by
        rw [horth s.k s.k hK1 le_rfl hK1 le_rfl, if_pos rfl]
      have h3 : dotn n (s.q (s.k - 1)) (s.q s.k) = 0 :=
        hdot0 (s.k - 1) s.k (by omega) le_rfl (Or.inl (by omega))
      rw [h1, h2, h3]; ring
    · have hqa := hqfr a haK'
      have hαa_pos : 0 < s.alpha a := lt_of_le_of_lt htol hqa.1
      have hαa_ne : s.alpha a ≠ 0 := ne_of_gt hαa_pos
      have h1 : dotn n (matvec A n (s.q s.k)) (s.q a)
          = if a + 1 = s.k then s.alpha a else 0 := by
        rw [dotn_matvec_symm A n hsym]
        have hma : matvec A n (s.q a) = fun i =>
            s.res a i + s.beta a * s.q a i + s.alpha (a - 1) * s.q (a - 1) i :=
          funext fun i => by have h := hrr a ha1 (le_of_lt haK') i; linarith
        rw [hma, dotn_add3_right]
        have hres_a : s.res a = fun i => s.alpha a * s.q (a + 1) i := funext fun i => by
          rw [hqa.2 i, mul_comm (s.alpha a) (s.res a i / s.alpha a),
            div_mul_cancel₀ _ hαa_ne]
        rw [hres_a, dotn_smul_right]
        have hq1 : dotn n (s.q s.k) (s.q (a + 1)) = if a + 1 = s.k then 1 else 0 := by
          by_cases hak : a + 1 = s.k
          · rw [if_pos hak, hak, horth s.k s.k hK1 le_rfl hK1 le_rfl, if_pos rfl]
          · rw [if_neg hak, hdot0 s.k (a + 1) le_rfl (by omega) (Or.inl (by omega))]
        have hq2 : dotn n (s.q s.k) (s.q a) = 0 :=
          hdot0 s.k a le_rfl (le_of_lt haK') (Or.inl (by omega))
        have hq3 : dotn n (s.q s.k) (s.q (a - 1)) = 0 :=
          hdot0 s.k (a - 1) le_rfl (by omega) (Or.inl (by omega))
        rw [hq1, hq2, hq3]
        by_cases hak : a + 1 = s.k <;> simp [hak]
      have h2 : dotn n (s.q s.k) (s.q a) = 0 :=
        hdot0 s.k a le_rfl (le_of_lt haK') (Or.inl (by omega))
      have h3 : dotn n (s.q (s.k - 1)) (s.q a) = if s.k - 1 = a then 1 else 0 := by
        by_cases hka : s.k - 1 = a
        · rw [if_pos hka, hka, horth a a ha1 (le_of_lt haK') ha1 (le_of_lt haK'),
            if_pos rfl]
        · rw [if_neg hka, hdot0 (s.k - 1) a (by omega) (le_of_lt haK') (Or.inl hka)]
      rw [h1, h2, h3]
      by_cases hak : a + 1 = s.k
      · rw [if_pos hak, if_pos (show s.k - 1 = a by omega)]
        have ha' : a = s.k - 1 := by omega
        rw [ha']; ring
      · rw [if_neg hak, if_neg (show ¬s.k - 1 = a by omega)]; ring
  refine ⟨?_, ?_, ?_, ?_, ?_, ?_⟩
  · intro i; rw [hqold 0 (Nat.zero_le _)]; exact hq0 i
  · intro j hj
    have hj' : j ≤ s.k + 1 := hj
    rcases Nat.lt_or_ge j (s.k + 1) with hlt | hge
    · have hjk : j ≤ s.k := by omega
      rw [hαold j hjk, hrold j hjk]; exact hαn j hjk
    · have hje : j = s.k + 1 := by omega
      subst hje
      rw [cgStep_alpha, Function.update_same]
  · intro j hj1 hj
    have hj' : j ≤ s.k + 1 := hj
    rcases Nat.lt_or_ge j (s.k + 1) with hlt | hge
    · have hjk : j ≤ s.k := by omega
      rw [hβold j hjk, hqold j hjk]; exact hβ j hj1 hjk
    · have hje : j = s.k + 1 := by omega
      subst hje
      rw [cgStep_beta, Function.update_same]
  · intro j hj1 hj i
    have hj' : j ≤ s.k + 1 := hj
    rcases Nat.lt_or_ge j (s.k + 1) with hlt | hge
    · have hjk : j ≤ s.k := by omega
      rw [hrold j hjk, hqold j hjk, hqold (j - 1) (by omega), hβold j hjk,
        hαold (j - 1) (by omega)]
      exact hrr j hj1 hjk i
    · have hje : j = s.k + 1 := by omega
      subst hje
      simp only [Nat.add_sub_cancel]
      simp only [cgStep_res, Function.update_same, hαold s.k le_rfl]
  · intro j hj
    have hj' : j < s.k + 1 := hj
    rcases Nat.lt_or_ge j s.k with hlt | hge
    · have h := hqfr j hlt
      constructor
      · rw [hαold j (le_of_lt hlt)]; exact h.1
      · intro i
        rw [hqold (j + 1) (by omega), hrold j (le_of_lt hlt), hαold j (le_of_lt hlt)]
        exact h.2 i
    · have hje : j = s.k := by omega
      subst hje
      constructor
      · rw [hαold s.k le_rfl]; exact hcond
      · intro i; rw [hqnew i, hrold s.k le_rfl, hαold s.k le_rfl]
  · intro a b ha1 haK1 hb1 hbK1
    have ha' : a ≤ s.k + 1 := haK1
    have hb' : b ≤ s.k + 1 := hbK1
    by_cases hae : a = s.k + 1 <;> by_cases hbe : b = s.k + 1
    · subst hae; subst hbe
      rw [if_pos rfl, hqfun, dotn_div_left, dotn_div_right]
      have hS : s.alpha s.k * s.alpha s.k = dotn n (s.res s.k) (s.res s.k) := by
        rw [hαn s.k le_rfl]; exact Real.mul_self_sqrt (dotn_self_nonneg n _)
      rw [← hS]; field_simp
    · subst hae
      have hbk : b ≤ s.k := by omega
      rw [if_neg (by omega), hqfun, hqold b hbk, dotn_div_left,
        hres_orth b hb1 hbk, zero_div]
    · subst hbe
      have hak : a ≤ s.k := by omega
      rw [if_neg (by omega), hqfun, hqold a hak, dotn_div_right,
        dotn_comm n (s.q a) (s.res s.k), hres_orth a ha1 hak, zero_div]
    · have hak : a ≤ s.k := by omega
      have hbk : b ≤ s.k := by omega
      rw [hqold a hak, hqold b hbk]; exact horth a b ha1 hak hb1 hbk

theorem cgStep_q_new (A : ℕ → ℕ → ℝ) (n : ℕ) (s : CgState) (i : ℕ) :
    (cgStep A n s).q (s.k + 1) i = s.res s.k i / s.alpha s.k := by
  rw [cgStep_q, Function.update_same]

theorem cgStep_q_old (A : ℕ → ℕ → ℝ) (n : ℕ) (s : CgState) (j : ℕ) (hj : ¬j = s.k + 1) :
    (cgStep A n s).q j = s.q j := by
  rw [cgStep_q, Function.update_noteq hj]

theorem cgStep_beta_new (A : ℕ → ℕ → ℝ) (n : ℕ) (s : CgState) :
    (cgStep A n s).beta (s.k + 1)
      = dotn n ((cgStep A n s).q (s.k + 1)) (matvec A n ((cgStep A n s).q (s.k + 1))) := by
  rw [cgStep_beta, Function.update_same]

theorem cgStep_res_new (A : ℕ → ℕ → ℝ) (n : ℕ) (s : CgState) (i : ℕ) :
    (cgStep A n s).res (s.k + 1) i
      = matvec A n ((cgStep A n s).q (s.k + 1)) i
        - (cgStep A n s).beta (s.k + 1) * (cgStep A n s).q (s.k + 1) i
        - s.alpha s.k * (cgStep A n s).q s.k i := by
  simp only [cgStep_res, Function.update_same]

theorem cgStep_alpha_new (A : ℕ → ℕ → ℝ) (n : ℕ) (s : CgState) :
    (cgStep A n s).alpha (s.k + 1)
      = Real.sqrt (dotn n ((cgStep A n s).res (s.k + 1)) ((cgStep A n s).res (s.k + 1))) := by
  rw [cgStep_alpha, Function.update_same]

theorem cgStep_alpha_old (A : ℕ → ℕ → ℝ) (n : ℕ) (s : CgState) (j : ℕ)
    (hj : ¬j = s.k + 1) : (cgStep A n s).alpha j = s.alpha j := by
  rw [cgStep_alpha, Function.update_noteq hj]

theorem sqrt_nine : Real.sqrt 9 = 3 := by
  rw [show (9 : ℝ) = 3 ^ 2 by norm_num, Real.sqrt_sq (by norm_num : (0 : ℝ) ≤ 3)]

theorem dotn3 (f g : ℕ → ℝ) : dotn 3 f g = f 0 * g 0 + f 1 * g 1 + f 2 * g 2 := by
  rw [dotn, Finset.sum_range_succ, Finset.sum_range_succ, Finset.sum_range_one]

theorem matvec3 (A : ℕ → ℕ → ℝ) (f : ℕ → ℝ) (i : ℕ) :
    matvec A 3 f i = A i 0 * f 0 + A i 1 * f 1 + A i 2 * f 2 := by
  rw [matvec, Finset.sum_range_succ, Finset.sum_range_succ, Finset.sum_range_one]

theorem cexS1_def : cexS1 = cgStep cexA 3 cexS0 := rfl

theorem cexS2_def : cexS2 = cgStep cexA 3 cexS1 := rfl

theorem cexS0_k : cexS0.k = 0 := rfl

theorem cexS0_q : ∀ j i, cexS0.q j i = 0 := fun _ _ => rfl

theorem cexS0_res0 : ∀ i, cexS0.res 0 i = cexRhs i := by
  intro i
  simp [cexS0, initialize_cg_lanczos, matvec]

theorem cexS0_alpha0 : cexS0.alpha 0 = 3 := by
  have h : cexS0.alpha 0 = Real.sqrt (dotn 3 (cexS0.res 0) (cexS0.res 0)) := by
    simp [cexS0, initialize_cg_lanczos]
  have hd : dotn 3 (cexS0.res 0) (cexS0.res 0) = 9 := by
    rw [dotn3]
    simp only [cexS0_res0]
    norm_num [cexRhs]
  rw [h, hd, sqrt_nine]

theorem cexS1_k : cexS1.k = 1 := rfl

theorem cexS1_q1 : ∀ i, cexS1.q 1 i = cexRhs i / 3 := by
  intro i
  have h := cgStep_q_new cexA 3 cexS0 i
  simp only [cexS0_k, Nat.zero_add, ← cexS1_def] at h
  rw [h, cexS0_res0 i, cexS0_alpha0]

theorem cexS1_q0 : ∀ i, cexS1.q 0 i = 0 := by
  intro i
  have h := cgStep_q_old cexA 3 cexS0 0 (by rw [cexS0_k]; omega)
  rw [← cexS1_def] at h
  rw [h]
  exact cexS0_q 0 i

theorem cexq1_0 : cexS1.q 1 0 = 2 / 3 := by rw [cexS1_q1]; norm_num [cexRhs]

theorem cexq1_1 : cexS1.q 1 1 = 1 / 3 := by rw [cexS1_q1]; norm_num [cexRhs]

theorem cexq1_2 : cexS1.q 1 2 = 2 / 3 := by rw [cexS1_q1]; norm_num [cexRhs]

theorem cexAq1_0 : matvec cexA 3 (cexS1.q 1) 0 = -(4 / 3) := by
  rw [matvec3, cexq1_0, cexq1_1, cexq1_2]
  norm_num [cexA]

theorem cexAq1_1 : matvec cexA 3 (cexS1.q 1) 1 = 7 / 3 := by
  rw [matvec3, cexq1_0, cexq1_1, cexq1_2]
  norm_num [cexA]

theorem cexAq1_2 : matvec cexA 3 (cexS1.q 1) 2 = 5 / 3 := by
  rw [matvec3, cexq1_0, cexq1_1, cexq1_2]
  norm_num [cexA]

theorem cexbeta1 : cexS1.beta 1 = 1 := by
  have h := cgStep_beta_new cexA 3 cexS0
  simp only [cexS0_k, Nat.zero_add, ← cexS1_def] at h
  rw [h, dotn3, cexq1_0, cexq1_1, cexq1_2, cexAq1_0, cexAq1_1, cexAq1_2]
  norm_num

theorem cexres1_0 : cexS1.res 1 0 = -2 := by
  have h := cgStep_res_new cexA 3 cexS0 0
  simp only [cexS0_k, Nat.zero_add, ← cexS1_def] at h
  rw [h, cexAq1_0, cexbeta1, cexq1_0, cexS0_alpha0, cexS1_q0]
  norm_num

theorem cexres1_1 : cexS1.res 1 1 = 2 := by
  have h := cgStep_res_new cexA 3 cexS0 1
  simp only [cexS0_k, Nat.zero_add, ← cexS1_def] at h
  rw [h, cexAq1_1, cexbeta1, cexq1_1, cexS0_alpha0, cexS1_q0]
  norm_num

theorem cexres1_2 : cexS1.res 1 2 = 1 := by
  have h := cgStep_res_new cexA 3 cexS0 2
  simp only [cexS0_k, Nat.zero_add, ← cexS1_def] at h
  rw [h, cexAq1_2, cexbeta1, cexq1_2, cexS0_alpha0, cexS1_q0]
  norm_num

theorem cexalpha1 : cexS1.alpha 1 = 3 := by
  have h := cgStep_alpha_new cexA 3 cexS0
  simp only [cexS0_k, Nat.zero_add, ← cexS1_def] at h
  rw [h, dotn3]
  simp only [cexres1_0, cexres1_1, cexres1_2]
  rw [show (-2 : ℝ) * -2 + 2 * 2 + 1 * 1 = 9 by norm_num, sqrt_nine]

theorem cexS2_k : cexS2.k = 2 := rfl

theorem cexS2_q2 : ∀ i, cexS2.q 2 i = cexS1.res 1 i / 3 := by
  intro i
  have h := cgStep_q_new cexA 3 cexS1 i
  have e : cexS1.k + 1 = 2 := by rw [cexS1_k]
  simp only [e, ← cexS2_def] at h
  simp only [cexS1_k] at h
  rw [h, cexalpha1]

theorem cexq2_0 : cexS2.q 2 0 = -(2 / 3) := by rw [cexS2_q2, cexres1_0]; norm_num

theorem cexq2_1 : cexS2.q 2 1 = 2 / 3 := by rw [cexS2_q2, cexres1_1]

theorem cexq2_2 : cexS2.q 2 2 = 1 / 3 := by rw [cexS2_q2, cexres1_2]

theorem cexS2_q1 : ∀ i, cexS2.q 1 i = cexS1.q 1 i := by
  intro i
  have h := cgStep_q_old cexA 3 cexS1 1 (by rw [cexS1_k]; omega)
  rw [← cexS2_def] at h
  rw [h]

theorem cexS2_alpha1 : cexS2.alpha 1 = 3 := by
  have h := cgStep_alpha_old cexA 3 cexS1 1 (by rw [cexS1_k]; omega)
  rw [← cexS2_def] at h
  rw [h, cexalpha1]

theorem cexAq2_0 : matvec cexA 3 (cexS2.q 2) 0 = 7 / 3 := by
  rw [matvec3, cexq2_0, cexq2_1, cexq2_2]
  norm_num [cexA]

theorem cexAq2_1 : matvec cexA 3 (cexS2.q 2) 1 = 11 / 3 := by
  rw [matvec3, cexq2_0, cexq2_1, cexq2_2]
  norm_num [cexA]

theorem cexAq2_2 : matvec cexA 3 (cexS2.q 2) 2 = 1 / 3 := by
  rw [matvec3, cexq2_0, cexq2_1, cexq2_2]
  norm_num [cexA]

theorem cexbeta2 : cexS2.beta 2 = 1 := by
  have h := cgStep_beta_new cexA 3 cexS1
  have e : cexS1.k + 1 = 2 := by rw [cexS1_k]
  simp only [e, ← cexS2_def] at h
  rw [h, dotn3, cexq2_0, cexq2_1, cexq2_2, cexAq2_0, cexAq2_1, cexAq2_2]
  norm_num

theorem cexRun_eq : cexRun = cexS2 := by
  have h3 : cgLoop cexA 3 (1 / 100) 3 3 cexS0
      = if (1 / 100 : ℝ) < cexS0.alpha cexS0.k ∧ cexS0.k < 3 - 1 then
          cgLoop cexA 3 (1 / 100) 3 2 (cgStep cexA 3 cexS0) else cexS0 := rfl
  have h2 : cgLoop cexA 3 (1 / 100) 3 2 cexS1
      = if (1 / 100 : ℝ) < cexS1.alpha cexS1.k ∧ cexS1.k < 3 - 1 then
          cgLoop cexA 3 (1 / 100) 3 1 (cgStep cexA 3 cexS1) else cexS1 := rfl
  have h1 : cgLoop cexA 3 (1 / 100) 3 1 cexS2
      = if (1 / 100 : ℝ) < cexS2.alpha cexS2.k ∧ cexS2.k < 3 - 1 then
          cgLoop cexA 3 (1 / 100) 3 0 (cgStep cexA 3 cexS2) else cexS2 := rfl
  show cgLoop cexA 3 (1 / 100) 3 3 cexS0 = cexS2
  rw [h3, if_pos ⟨by rw [cexS0_k, cexS0_alpha0]; norm_num, by rw [cexS0_k]; omega⟩,
    ← cexS1_def, h2,
    if_pos ⟨by rw [cexS1_k, cexalpha1]; norm_num, by rw [cexS1_k]; omega⟩,
    ← cexS2_def, h1,
    if_neg (by intro hcc; rw [cexS2_k] at hcc; exact absurd hcc.2 (by norm_num))]

/-- The invariant holds at `initialize_cg_lanczos` (where `k = 0`). -/
theorem cgInv_init (A : ℕ → ℕ → ℝ) (n : ℕ) (tol : ℝ) (rhs x0 : ℕ → ℝ) :
    CgInv A n tol (initialize_cg_lanczos A n rhs x0) := by
  have hk : (initialize_cg_lanczos A n rhs x0).k = 0 := rfl
  refine ⟨fun i => rfl, ?_, ?_, ?_, ?_, ?_⟩
  · intro j hj
    rw [hk] at hj
    have hj0 : j = 0 := Nat.le_zero.mp hj
    subst hj0
    simp only [initialize_cg_lanczos, Function.update_same]
  · intro j hj1 hj2
    rw [hk] at hj2
    omega
  · intro j hj1 hj2
    rw [hk] at hj2
    omega
  · intro j hj
    rw [hk] at hj
    omega
  · intro a b ha1 ha2
    rw [hk] at ha2
    omega

/-- The invariant is preserved by the guarded `while` loop for any fuel. -/
theorem cgLoop_inv (A : ℕ → ℕ → ℝ) (n : ℕ) (tol : ℝ) (htol : 0 ≤ tol)
    (hsym : ∀ i, i < n → ∀ t, t < n → A i t = A t i) (m : ℕ) :
    ∀ fuel s, CgInv A n tol s → CgInv A n tol (cgLoop A n tol m fuel s) := by
  intro fuel
  induction fuel with
  | zero => intro s h; exact h
  | succ f ih =>
    intro s h
    by_cases hcond : tol < s.alpha s.k ∧ s.k < m - 1
    · simp only [cgLoop, if_pos hcond]
      exact ih _ (cgInv_step A n tol htol hsym s h hcond.1)
    · simp only [cgLoop, if_neg hcond]
      exact h

/-- C4 (amended): for a symmetric `A` and nonnegative tolerance, the state
returned by `run_cg_lanczos` has exactly orthonormal columns `q 1 .. q k`
(`QᵀQ = I` holds exactly, not merely within tolerance), and for `k ≥ 2` the
Lanczos defect `A Q - Q T` (with `T = construct_tri` built from
`alpha[1:k]`/`beta[1:k+1]` as in `test_cg_lanczos`) vanishes in every column
except the last, where it equals the final residual `res[:,k]`; the norm of
that residual is the recorded `alpha[k]`, which is only guaranteed to be
within the tolerance when the loop exited on the tolerance test (not when it
exhausted `max_iters`), refuting the unconditional "within solver tolerance"
reading. -/
theorem run_cg_lanczos_lanczos_relation (A : ℕ → ℕ → ℝ) (n : ℕ) (rhs x0 : ℕ → ℝ)
    (max_iters : ℕ) (tol : ℝ) (htol : 0 ≤ tol)
    (hsym : ∀ i, i < n → ∀ t, t < n → A i t = A t i) :
    ∀ s, s = run_cg_lanczos A n rhs x0 max_iters tol →
      (∀ a b, 1 ≤ a → a ≤ s.k → 1 ≤ b → b ≤ s.k →
        dotn n (s.q a) (s.q b) = if a = b then 1 else 0) ∧
      (∀ i c, 2 ≤ s.k → c < s.k →
        matvec A n (s.q (c + 1)) i
            - ∑ t ∈ Finset.range s.k, s.q (t + 1) i *
                construct_tri (fun u => s.alpha (1 + u)) (fun u => s.beta (1 + u)) s.k t c
          = if c + 1 = s.k then s.res s.k i else 0) ∧
      Real.sqrt (dotn n (s.res s.k) (s.res s.k)) = s.alpha s.k := by
  intro s hs
  have hinv : CgInv A n tol s := by
    rw [hs]
    exact cgLoop_inv A n tol htol hsym max_iters max_iters _ (cgInv_init A n tol rhs x0)
  obtain ⟨hq0, hαn, hβ, hrr, hqfr, horth⟩ := hinv
  refine ⟨horth, ?_, (hαn s.k le_rfl).symm⟩
  intro i c hk2 hc
  have hg : ∀ t ∈ Finset.range s.k,
      s.q (t + 1) i * construct_tri (fun u => s.alpha (1 + u)) (fun u => s.beta (1 + u)) s.k t c
        = (if t = c then s.q (c + 1) i * s.beta (1 + c) else 0)
          + (if t + 1 = c then s.q (t + 1) i * s.alpha (1 + t) else 0)
          + (if t = c + 1 then s.q (c + 2) i * s.alpha (1 + c) else 0) := by
    intro t ht
    have ht' := Finset.mem_range.mp ht
    simp only [construct_tri]
    rw [if_pos ⟨ht', hc⟩]
    by_cases h1 : t = c
    · subst h1
      rw [if_pos rfl, if_pos rfl, if_neg (by omega), if_neg (by omega)]
      ring
    · rw [if_neg h1, if_neg h1]
      by_cases h2 : t + 1 = c
      · rw [if_pos h2, if_pos h2, if_neg (by omega)]
        ring
      · rw [if_neg h2, if_neg h2]
        by_cases h3 : c + 1 = t
        · have h3' : t = c + 1 := by omega
          subst h3'
          rw [if_pos rfl, if_pos rfl, show c + 1 + 1 = c + 2 from rfl]
          ring
        · rw [if_neg h3, if_neg (by omega)]
          ring
  have hsum : (∑ t ∈ Finset.range s.k, s.q (t + 1) i *
      construct_tri (fun u => s.alpha (1 + u)) (fun u => s.beta (1 + u)) s.k t c)
      = s.q (c + 1) i * s.beta (1 + c) + s.alpha c * s.q c i
        + (if c + 1 < s.k then s.q (c + 2) i * s.alpha (1 + c) else 0) := by
    rw [Finset.sum_congr rfl hg, Finset.sum_add_distrib, Finset.sum_add_distrib]
    rw [Finset.sum_ite_eq' (Finset.range s.k) c (fun _ => s.q (c + 1) i * s.beta (1 + c)),
      if_pos (Finset.mem_range.mpr hc)]
    rw [Finset.sum_ite_eq' (Finset.range s.k) (c + 1)
        (fun _ => s.q (c + 2) i * s.alpha (1 + c))]
    simp only [Finset.mem_range]
    by_cases hc1 : 1 ≤ c
    · have h2' : (∑ t ∈ Finset.range s.k,
          if t + 1 = c then s.q (t + 1) i * s.alpha (1 + t) else 0)
          = ∑ t ∈ Finset.range s.k,
              if t = c - 1 then s.q (t + 1) i * s.alpha (1 + t) else 0 :=
        Finset.sum_congr rfl fun t _ => if_congr (by omega) rfl rfl
      rw [h2', Finset.sum_ite_eq' (Finset.range s.k) (c - 1)
          (fun t => s.q (t + 1) i * s.alpha (1 + t)),
        if_pos (Finset.mem_range.mpr (by omega)),
        show c - 1 + 1 = c by omega, show 1 + (c - 1) = c by omega]
      ring
    · have hc0 : c = 0 := by omega
      have h2' : (∑ t ∈ Finset.range s.k,
          if t + 1 = c then s.q (t + 1) i * s.alpha (1 + t) else 0) = 0 :=
        Finset.sum_eq_zero fun t _ => if_neg (by omega)
      rw [h2', hc0, hq0 i]
      ring
  rw [hsum]
  have hr := hrr (c + 1) (by omega) (by omega) i
  simp only [Nat.add_sub_cancel] at hr
  rw [show 1 + c = c + 1 from Nat.add_comm 1 c]
  by_cases hck : c + 1 < s.k
  · rw [if_pos hck, if_neg (by omega)]
    have hqa := hqfr (c + 1) hck
    have hαpos : 0 < s.alpha (c + 1) := lt_of_le_of_lt htol hqa.1
    have hqv : s.q (c + 2) i = s.res (c + 1) i / s.alpha (c + 1) := hqa.2 i
    rw [hqv, div_mul_cancel₀ _ (ne_of_gt hαpos)]
    linarith [hr]
  · rw [if_neg hck, if_pos (by omega)]
    rw [show s.k = c + 1 by omega]
    linarith [hr]

/-- C4 counterexample: for the symmetric matrix `cexA` with right-hand side
`cexRhs`, zero initial guess, `max_iters = 3` and tolerance `1/100`,
`run_cg_lanczos` stops at `k = 2` (fuel exhausted, residual not small), and
the Lanczos defect `A Q - Q T` has an entry of absolute value `2 > 1/100`:
the claimed bound "`A Q = Q T` to within the solver tolerance" fails. -/
theorem run_cg_lanczos_defect_exceeds_tol_cex :
    (∀ i t, cexA i t = cexA t i) ∧
    cexRun.k = 2 ∧
    ¬ (∀ i c, i < 3 → c < cexRun.k →
        |matvec cexA 3 (cexRun.q (c + 1)) i
            - ∑ t ∈ Finset.range cexRun.k, cexRun.q (t + 1) i *
                construct_tri (fun u => cexRun.alpha (1 + u))
                  (fun u => cexRun.beta (1 + u)) cexRun.k t c| ≤ 1 / 100) := by
  refine ⟨?_, ?_, ?_⟩
  · intro i t
    unfold cexA
    split_ifs <;> norm_num
  · rw [cexRun_eq]; exact cexS2_k
  · intro h
    have h21 := h 2 1 (by norm_num) (by rw [cexRun_eq, cexS2_k]; omega)
    rw [cexRun_eq] at h21
    rw [cexS2_k] at h21
    rw [Finset.sum_range_succ, Finset.sum_range_one] at h21
    simp only [show (0 : ℕ) + 1 = 1 from rfl, show (1 : ℕ) + 1 = 2 from rfl] at h21
    have hT01 : construct_tri (fun u => cexS2.alpha (1 + u))
        (fun u => cexS2.beta (1 + u)) 2 0 1 = 3 := by
      simp only [construct_tri]
      norm_num [cexS2_alpha1]
    have hT11 : construct_tri (fun u => cexS2.alpha (1 + u))
        (fun u => cexS2.beta (1 + u)) 2 1 1 = 1 := by
      simp only [construct_tri]
      norm_num [cexbeta2]
    rw [hT01, hT11, cexAq2_2, cexq2_2, cexS2_q1 2, cexq1_2] at h21
    norm_num at h21

/-- Witness for `run_cg_lanczos_lanczos_relation` at the concrete symmetric
instance `A = 0 (1 × 1)`, `rhs = x0 = 0`, `max_iters = 1`, `tol = 0`. -/
theorem run_cg_lanczos_lanczos_relation_witness :
    ((0 : ℝ) ≤ 0 ∧ (∀ i, i < 1 → ∀ t, t < 1 →
        (fun _ _ => (0 : ℝ)) i t = (fun _ _ => (0 : ℝ)) t i)) ∧
    (∀ s, s = run_cg_lanczos (fun _ _ => 0) 1 (fun _ => 0) (fun _ => 0) 1 0 →
      (∀ a b, 1 ≤ a → a ≤ s.k → 1 ≤ b → b ≤ s.k →
        dotn 1 (s.q a) (s.q b) = if a = b then 1 else 0) ∧
      (∀ i c, 2 ≤ s.k → c < s.k →
        matvec (fun _ _ => 0) 1 (s.q (c + 1)) i
            - ∑ t ∈ Finset.range s.k, s.q (t + 1) i *
                construct_tri (fun u => s.alpha (1 + u)) (fun u => s.beta (1 + u)) s.k t c
          = if c + 1 = s.k then s.res s.k i else 0) ∧
      Real.sqrt (dotn 1 (s.res s.k) (s.res s.k)) = s.alpha s.k) :=
  ⟨⟨le_rfl, fun _ _ _ _ => rfl⟩,
    run_cg_lanczos_lanczos_relation (fun _ _ => 0) 1 (fun _ => 0) (fun _ => 0) 1 0
      le_rfl (fun _ _ _ _ => rfl)⟩
